import Mathlib

/-!
# goviz — dependency graph construction and enrichment engine

Shallow embedding of the core of the `goviz` repository: the `graph`
package (`BuildDependencyGraph`, `BuildEnhancedDependencyGraph`,
`DetectVersionConflicts`, `AnalyzeLicenses`, `CheckSecurity`,
`GetStatistics`, `GetDependencyCount`) and the `parser` package
(`ParseGoSum`, `GetDirectDependencies`, `GetTransitiveDependencies`).

Go maps are modelled as association lists (`List (String × α)`) whose
iteration order is the list order; `mapInsert` has Go map-store semantics
(overwrite if the key is present, append otherwise).  Go's in-place
mutation of nodes through pointers is modelled by functional update of
the association lists; pointer aliasing is harmless here because base
`Node` fields are never mutated after they are inserted into a map, and
the builder stores the root with its final children list.
-/

namespace Goviz


/-! ## Association-list model of Go maps -/


/-- First-match lookup in an association list, the observable behaviour of
a Go map read (`m[k]`). -/
def lookupKey (k : String) : List (String × α) → Option α
  | [] => none
  | p :: m => if p.1 = k then some p.2 else lookupKey k m

/-- Key list of an association list. -/
def keys (m : List (String × α)) : List String := m.map Prod.fst

/-- Go map store `m[k] = v`: overwrite the entry if the key is present,
append a fresh entry otherwise. -/
def mapInsert (k : String) (v : α) (m : List (String × α)) : List (String × α) :=
  if (lookupKey k m).isSome then
    m.map (fun p => if p.1 = k then (k, v) else p)
  else m ++ [(k, v)]

/-! ## String helpers mirroring Go's `strings` package

Go strings are byte sequences compared bytewise; for valid UTF-8 input,
bytewise substring/suffix matching and lexicographic comparison agree
with the character-level operations used here. -/


/-- Go `strings.Contains(s, sub)`. -/
def goContains (s sub : String) : Bool := decide (sub.toList <:+: s.toList)

/-- Go `strings.HasSuffix(s, suffix)`. -/
def goHasSuffix (s suffix : String) : Bool := suffix.toList.isSuffixOf s.toList

/-- Go `strings.TrimSpace(s)`. -/
def goTrimSpace (s : String) : String :=
  ⟨((s.toList.dropWhile Char.isWhitespace).reverse.dropWhile Char.isWhitespace).reverse⟩

/-- Go `strings.Fields(s)`: the maximal runs of non-whitespace characters. -/
def goFields (s : String) : List String :=
  ((s.toList.splitOnP Char.isWhitespace).filter (· ≠ [])).map fun cs => ⟨cs⟩

/-- Lexicographic comparison of character lists: Go's bytewise string
comparison (`s <= t`), which for valid UTF-8 agrees with the
code-point-wise comparison used here. -/
def charListLe : List Char → List Char → Bool
  | [], _ => true
  | _ :: _, [] => false
  | a :: as, b :: bs => if a < b then true else if b < a then false else charListLe as bs

/-- Go's `s <= t` on strings. -/
def goStringLe (s t : String) : Bool := charListLe s.toList t.toList

/-- Go `sort.Strings`: sort ascending in Go's lexicographic order. -/
def sortStrings (l : List String) : List String :=
  l.insertionSort (fun a b => goStringLe a b = true)

/-! ## Data model (`pkg/graph`, `pkg/parser`) -/


/-- Model of `parser.GoSumEntry`. -/
structure GoSumEntry where
  modulePath : String
  version : String
  hash : String
deriving Repr, DecidableEq, Inhabited

/-- One `require` directive of a parsed `go.mod` (`modfile.Require`):
module path, version, and the `// indirect` flag. -/
structure Require where
  path : String
  version : String
  indirect : Bool
deriving Repr, DecidableEq

/-- The parts of `modfile.File` the core reads: the `module` path, the
optional `go` version, and the `require` list. -/
structure ModFile where
  modulePath : String
  goVersion : Option String
  require : List Require
deriving Repr, DecidableEq

/-- Model of `graph.Node`.  `children` holds the names of the child nodes; in the
source it is a slice of pointers into `AllNodes`, and node names are the
map keys, so names faithfully represent the pointer targets (base `Node`
fields are never mutated after construction). -/
structure Node where
  name : String
  version : String
  direct : Bool
  children : List String
deriving Repr, DecidableEq

/-- Model of `graph.DependencyGraph`. -/
structure DependencyGraph where
  root : Node
  allNodes : List (String × Node)
  moduleName : String
  moduleGoVersion : String
deriving Repr, DecidableEq

/-- Model of `graph.VersionConflict`. -/
structure VersionConflict where
  modulePath : String
  currentVersion : String
  conflictVersion : String
  reason : String
deriving Repr, DecidableEq

/-- Model of `graph.SecurityIssue`. -/
structure SecurityIssue where
  id : String
  severity : String
  description : String
  fixedIn : String
deriving Repr, DecidableEq

/-- Model of `graph.EnhancedNode`.  The embedded `*Node` becomes the `node` field.
The `Transitive` slice (always empty in the source) and the never-written
health fields `LastUpdate`/`IsOutdated`/`UpdateAvailable` are omitted. -/
structure EnhancedNode where
  node : Node
  hash : String
  conflicts : List VersionConflict
  securityIssues : List SecurityIssue
  license : String
deriving Repr, DecidableEq

/-- Model of `graph.EnhancedDependencyGraph`.  The embedded `*DependencyGraph`
becomes the `base` field; `TotalSize`/`BuildTime` (never read by the
core) are omitted. -/
structure EnhancedDependencyGraph where
  base : DependencyGraph
  enhancedNodes : List (String × EnhancedNode)
  goSumEntries : List (String × GoSumEntry)
  conflicts : List VersionConflict
  securityIssues : List SecurityIssue
  licensesSummary : List (String × Nat)
deriving Repr, DecidableEq

/-! ## `parser.ParseGoSum` (pkg/parser/gosum.go) -/


/-- The lock file as the parser sees it: `missing` models an `os.Open`
failure (the file does not exist), `present lines readErr` an opened file
with its lines and whether the scanner hits a read error. -/
inductive GoSumFile where
  | missing : GoSumFile
  | present : List String → Bool → GoSumFile
deriving Repr, DecidableEq

/-- One iteration of the scanner loop of `ParseGoSum`: trim the line,
skip blanks and short lines, skip `/go.mod` hash lines, otherwise store
the entry under the key `modulePath@version`. -/
def parseGoSumLine (entries : List (String × GoSumEntry)) (rawLine : String) :
    List (String × GoSumEntry) :=
  let line := goTrimSpace rawLine
  if line = "" then entries
  else
    match goFields line with
    | modulePath :: version :: hash :: _ =>
      if goHasSuffix version "/go.mod" then entries
      else mapInsert (modulePath ++ "@" ++ version)
        { modulePath := modulePath, version := version, hash := hash } entries
    | _ => entries

/-- Model of `parser.ParseGoSum`: a missing file yields an empty map and no error;
a scanner read error on an opened file is returned as an error. -/
def ParseGoSum (f : GoSumFile) : Except String (List (String × GoSumEntry)) :=
  match f with
  | .missing => .ok []
  | .present lines readErr =>
    if readErr then .error "error reading go.sum"
    else .ok (lines.foldl parseGoSumLine [])

/-- Model of `parser.GetDirectDependencies`: paths of the non-indirect requires. -/
def GetDirectDependencies (modFile : ModFile) : List String :=
  (modFile.require.filter (fun r => !r.indirect)).map (·.path)

/-- The loop of `parser.GetTransitiveDependencies`: keep each entry whose
module path is neither a direct dependency nor already seen, recording
seen paths. -/
def transLoop (directDepMap : List String) (seenModules : List String) :
    List (String × GoSumEntry) → List GoSumEntry
  | [] => []
  | p :: rest =>
    if !(directDepMap.contains p.2.modulePath) && !(seenModules.contains p.2.modulePath) then
      p.2 :: transLoop directDepMap (seenModules ++ [p.2.modulePath]) rest
    else
      transLoop directDepMap seenModules rest

/-- Model of `parser.GetTransitiveDependencies`. -/
def GetTransitiveDependencies (goSumEntries : List (String × GoSumEntry))
    (directDeps : List String) : List GoSumEntry :=
  transLoop directDeps [] goSumEntries

/-! ## Base graph builder (`pkg/graph/graph.go`) -/


/-- The root node `BuildDependencyGraph` creates: the source appends each
direct require to `root.Children` through the pointer stored in
`AllNodes`; modelling stores the root with its final children list, which
yields the same final state (base `Node` fields are never written again). -/
def rootNode (modFile : ModFile) : Node :=
  { name := modFile.modulePath
    version := "main"
    direct := true
    children := (modFile.require.filter (fun r => !r.indirect)).map (·.path) }

/-- The node `BuildDependencyGraph` creates for one require directive. -/
def requireNode (r : Require) : Node :=
  { name := r.path, version := r.version, direct := !r.indirect, children := [] }

/-- Model of `graph.BuildDependencyGraph`: insert the root, then one node per
require (`last write wins` on duplicate paths, as for a Go map). -/
def BuildDependencyGraph (modFile : ModFile) : DependencyGraph :=
  { root := rootNode modFile
    allNodes := modFile.require.foldl
      (fun acc r => mapInsert r.path (requireNode r) acc)
      (mapInsert modFile.modulePath (rootNode modFile) [])
    moduleName := modFile.modulePath
    moduleGoVersion := match modFile.goVersion with | some v => v | none => "" }

/-- Model of `graph.DependencyGraph.GetDependencyCount`: count non-root nodes by
their `Direct` flag (root is recognized by node name). -/
def GetDependencyCount (g : DependencyGraph) : Nat × Nat :=
  g.allNodes.foldl
    (fun acc p =>
      if p.2.name ≠ g.root.name then
        if p.2.direct then (acc.1 + 1, acc.2) else (acc.1, acc.2 + 1)
      else acc)
    (0, 0)

/-! ## Graph enricher (`pkg/graph/enhanced.go`) -/


/-- First loop of `BuildEnhancedDependencyGraph`: wrap each base node in
an `EnhancedNode`, copying the hash of the `name@version` lock entry when
one exists (`License` starts as Go's zero value `""`). -/
def wrapNode (goSumEntries : List (String × GoSumEntry)) (name : String) (node : Node) :
    EnhancedNode :=
  let hash := match lookupKey (name ++ "@" ++ node.version) goSumEntries with
    | some entry => entry.hash
    | none => ""
  { node := node, hash := hash, conflicts := [], securityIssues := [], license := "" }

/-- Second loop of `BuildEnhancedDependencyGraph`: for each transitive
entry whose module path is not yet an enhanced node, synthesize a base
node (`Direct = false`) and an enhanced node and insert both. -/
def addTransLoop : List GoSumEntry → EnhancedDependencyGraph → EnhancedDependencyGraph
  | [], g => g
  | transDep :: rest, g =>
    if (lookupKey transDep.modulePath g.enhancedNodes).isSome then
      addTransLoop rest g
    else
      let node : Node :=
        { name := transDep.modulePath, version := transDep.version,
          direct := false, children := [] }
      let enhancedNode : EnhancedNode :=
        { node := node, hash := transDep.hash, conflicts := [],
          securityIssues := [], license := "" }
      addTransLoop rest
        { g with
          enhancedNodes := mapInsert transDep.modulePath enhancedNode g.enhancedNodes
          base := { g.base with
            allNodes := mapInsert transDep.modulePath node g.base.allNodes } }

/-- The pure part of `BuildEnhancedDependencyGraph` (lines after the
`ParseGoSum` call): wrap the base nodes, then merge in the lock-only
transitive modules. -/
def enrichGraph (modFile : ModFile) (basicGraph : DependencyGraph)
    (goSumEntries : List (String × GoSumEntry)) : EnhancedDependencyGraph :=
  let enhancedNodes := basicGraph.allNodes.foldl
    (fun m p => mapInsert p.1 (wrapNode goSumEntries p.1 p.2) m) []
  let g : EnhancedDependencyGraph :=
    { base := basicGraph
      enhancedNodes := enhancedNodes
      goSumEntries := goSumEntries
      conflicts := []
      securityIssues := []
      licensesSummary := [] }
  let directDeps := GetDirectDependencies modFile
  let transitiveDeps := GetTransitiveDependencies goSumEntries directDeps
  addTransLoop transitiveDeps g

/-- Model of `graph.BuildEnhancedDependencyGraph`: build the base graph, parse the
lock file (propagating its error), then enrich. -/
def BuildEnhancedDependencyGraph (modFile : ModFile) (goSumFile : GoSumFile) :
    Except String EnhancedDependencyGraph :=
  let basicGraph := BuildDependencyGraph modFile
  match ParseGoSum goSumFile with
  | .error e => .error ("failed to parse go.sum: " ++ e)
  | .ok goSumEntries => .ok (enrichGraph modFile basicGraph goSumEntries)

/-! ## Conflict detection (`DetectVersionConflicts`) -/


/-- Go map append `versionMap[path] = append(versionMap[path], version)`. -/
def multiAdd (k v : String) (m : List (String × List String)) :
    List (String × List String) :=
  if (lookupKey k m).isSome then
    m.map (fun p => if p.1 = k then (p.1, p.2 ++ [v]) else p)
  else m ++ [(k, [v])]

/-- First loop of `DetectVersionConflicts`: group the lock-entry versions
by module path. -/
def buildVersionMap (entries : List (String × GoSumEntry)) :
    List (String × List String) :=
  entries.foldl (fun m p => multiAdd p.2.modulePath p.2.version m) []

/-- Inner loop of `DetectVersionConflicts` for one module path: sort the
versions ascending and pair every non-maximal version against the last
(maximal) one. -/
def conflictsFor (modulePath : String) (versions : List String) : List VersionConflict :=
  let sorted := sortStrings versions
  sorted.dropLast.map (fun v =>
    { modulePath := modulePath
      currentVersion := sorted.getLastD ""
      conflictVersion := v
      reason := "Multiple versions in go.sum" })

/-- Append a block of conflicts to the `Conflicts` list of the enhanced
node stored under `name` (no-op on the other entries). -/
def appendNodeConflicts (name : String) (cs : List VersionConflict)
    (m : List (String × EnhancedNode)) : List (String × EnhancedNode) :=
  m.map (fun p => if p.1 = name then (p.1, { p.2 with conflicts := p.2.conflicts ++ cs }) else p)

/-- Second loop of `DetectVersionConflicts`: for each path with more than
one version, append its conflicts to the graph list and, when the path
names an enhanced node, to that node's list. -/
def detectLoop : List (String × List String) → EnhancedDependencyGraph →
    EnhancedDependencyGraph
  | [], g => g
  | (modulePath, versions) :: rest, g =>
    if versions.length > 1 then
      let cs := conflictsFor modulePath versions
      detectLoop rest
        { g with
          conflicts := g.conflicts ++ cs
          enhancedNodes :=
            if (lookupKey modulePath g.enhancedNodes).isSome then
              appendNodeConflicts modulePath cs g.enhancedNodes
            else g.enhancedNodes }
    else detectLoop rest g

/-- Model of `graph.EnhancedDependencyGraph.DetectVersionConflicts`. -/
def DetectVersionConflicts (g : EnhancedDependencyGraph) : EnhancedDependencyGraph :=
  detectLoop (buildVersionMap g.goSumEntries) g

/-! ## License classification (`AnalyzeLicenses`) -/


/-- The static `knownLicenses` table. -/
def knownLicenses : List (String × String) :=
  [("github.com/spf13/cobra", "Apache-2.0"),
   ("github.com/spf13/pflag", "BSD-3-Clause"),
   ("github.com/awalterschulze/gographviz", "Apache-2.0"),
   ("github.com/inconshreveable/mousetrap", "Apache-2.0"),
   ("golang.org/x/mod", "BSD-3-Clause"),
   ("gopkg.in/yaml.v3", "Apache-2.0"),
   ("github.com/google/licensecheck", "BSD-3-Clause"),
   ("github.com/fatih/color", "MIT")]

/-- The license chosen for a node name by the body of the `AnalyzeLicenses`
loop: the static table first, then the two `strings.Contains`
organizational rules, then `"Unknown"`. -/
def classifyLicense (name : String) : String :=
  match lookupKey name knownLicenses with
  | some license => license
  | none =>
    if goContains name "golang.org/x/" then "BSD-3-Clause"
    else if goContains name "github.com/mattn/" then "MIT"
    else "Unknown"

/-- Go map increment `m[license]++` (a missing key reads as 0). -/
def bumpCount (k : String) (m : List (String × Nat)) : List (String × Nat) :=
  if (lookupKey k m).isSome then
    m.map (fun p => if p.1 = k then (p.1, p.2 + 1) else p)
  else m ++ [(k, 1)]

/-- Model of `graph.EnhancedDependencyGraph.AnalyzeLicenses` (always nil error in
the source): set each enhanced node's license — the loop ranges over all
of `EnhancedNodes`, root included — and increment the summary count. -/
def AnalyzeLicenses (g : EnhancedDependencyGraph) : EnhancedDependencyGraph :=
  let st := g.enhancedNodes.foldl
    (fun st p =>
      let license := classifyLicense p.1
      (st.1 ++ [(p.1, { p.2 with license := license })], bumpCount license st.2))
    ([], g.licensesSummary)
  { g with enhancedNodes := st.1, licensesSummary := st.2 }

/-! ## Security heuristics (`CheckSecurity`) -/


/-- The static `vulnerablePatterns` table. -/
def vulnerablePatterns : List (String × SecurityIssue) :=
  [("github.com/gin-gonic/gin",
    { id := "GHSA-example", severity := "MEDIUM",
      description := "Check for latest version with security fixes", fixedIn := "v1.9.1+" }),
   ("github.com/gorilla/websocket",
    { id := "CVE-2023-example", severity := "HIGH",
      description := "WebSocket vulnerability in older versions", fixedIn := "v1.5.0+" })]

/-- The issue emitted by the pre-release-marker rule. -/
def devVersionIssue : SecurityIssue :=
  { id := "DEV-VERSION", severity := "LOW",
    description := "Development version detected in dependencies",
    fixedIn := "Use stable release version" }

/-- The issue emitted by the very-old-date rule. -/
def oldVersionIssue : SecurityIssue :=
  { id := "OLD-VERSION", severity := "MEDIUM",
    description := "Very old package version may have security vulnerabilities",
    fixedIn := "Update to latest version" }

/-- The issue emitted by the insecure-primitive name rule. -/
def insecureCryptoIssue : SecurityIssue :=
  { id := "INSECURE-CRYPTO", severity := "HIGH",
    description := "Package uses insecure cryptographic functions",
    fixedIn := "Use secure alternatives (SHA-256, bcrypt, etc.)" }

/-- The issue emitted by the missing/zero-version rule. -/
def noVersionIssue : SecurityIssue :=
  { id := "NO-VERSION", severity := "LOW",
    description := "Package without proper versioning detected",
    fixedIn := "Use properly versioned packages" }

/-- The `insecurePatterns` slice. -/
def insecurePatterns : List String := ["crypto/md5", "crypto/sha1", "net/http/httputil"]

/-- Rule 1: known-vulnerable table entry, gated on old-minor version
substrings. -/
def vulnTableIssues (name version : String) : List SecurityIssue :=
  match lookupKey name vulnerablePatterns with
  | some issue =>
    if goContains version "v1.8" || goContains version "v1.7" || goContains version "v1.4"
    then [issue] else []
  | none => []

/-- Rule 2: pre-release / development version markers. -/
def devVersionIssues (version : String) : List SecurityIssue :=
  if goContains version "dev" || goContains version "alpha" || goContains version "beta" ||
     goContains version "rc" || goContains version "snapshot"
  then [devVersionIssue] else []

/-- Rule 3: very old date-stamped versions. -/
def oldVersionIssues (version : String) : List SecurityIssue :=
  if goContains version "20161208" || goContains version "20170" || goContains version "20180"
  then [oldVersionIssue] else []

/-- Rule 4: insecure cryptographic primitive in the module path (one
issue per matching pattern). -/
def insecureCryptoIssues (name : String) : List SecurityIssue :=
  (insecurePatterns.filter (fun pattern => goContains name pattern)).map
    (fun _ => insecureCryptoIssue)

/-- Rule 5: empty or zero version. -/
def noVersionIssues (version : String) : List SecurityIssue :=
  if version = "" || version = "v0.0.0" then [noVersionIssue] else []

/-- All issues the `CheckSecurity` loop body appends for one non-root
node, in source order: the five rules are evaluated independently and
their results accumulate. -/
def nodeSecurityIssues (name version : String) : List SecurityIssue :=
  vulnTableIssues name version ++ devVersionIssues version ++ oldVersionIssues version ++
    insecureCryptoIssues name ++ noVersionIssues version

/-- Model of `graph.EnhancedDependencyGraph.CheckSecurity` (always nil error in
the source): for every enhanced node except the root, append the matching
issues to the node and to the graph-level list. -/
def CheckSecurity (g : EnhancedDependencyGraph) : EnhancedDependencyGraph :=
  let st := g.enhancedNodes.foldl
    (fun st p =>
      if p.1 = g.base.root.name then (st.1 ++ [p], st.2)
      else
        let issues := nodeSecurityIssues p.1 p.2.node.version
        (st.1 ++ [(p.1, { p.2 with securityIssues := p.2.securityIssues ++ issues })],
         st.2 ++ issues))
    ([], g.securityIssues)
  { g with enhancedNodes := st.1, securityIssues := st.2 }

/-! ## Statistics aggregation (`GetStatistics`) -/


/-- Values of the `map[string]any` statistics snapshot: Go ints and the
nested license histogram. -/
inductive StatValue where
  | int : Int → StatValue
  | histogram : List (String × Nat) → StatValue
deriving Repr, DecidableEq

/-- Model of `graph.EnhancedDependencyGraph.GetStatistics`.  Arithmetic is over
`Int` as in Go: `transitive` is not clamped and may be negative. -/
def GetStatistics (g : EnhancedDependencyGraph) : List (String × StatValue) :=
  let counts := GetDependencyCount g.base
  let direct := counts.1
  let indirect := counts.2
  let transitive : Int := (g.goSumEntries.length : Int) - direct - indirect
  [("total_dependencies", .int ((g.base.allNodes.length : Int) - 1)),
   ("direct_dependencies", .int direct),
   ("indirect_dependencies", .int indirect),
   ("transitive_dependencies", .int transitive),
   ("version_conflicts", .int g.conflicts.length),
   ("security_issues", .int g.securityIssues.length),
   ("unique_licenses", .int g.licensesSummary.length),
   ("licenses_breakdown", .histogram g.licensesSummary)]

/-! ## Derived observations used by the specification -/


/-- Value of one histogram bucket (a missing key reads as 0, as in Go). -/
def countOf (k : String) (m : List (String × Nat)) : Nat := (lookupKey k m).getD 0

/-- Sum of all histogram buckets. -/
def countSum (m : List (String × Nat)) : Nat := (m.map (·.2)).sum

/-- All versions recorded for one module path, in lock-entry order. -/
def versionsOf (p : String) (entries : List (String × GoSumEntry)) : List String :=
  (entries.filter (fun q => q.2.modulePath = p)).map (·.2.version)

/-- Well-formedness of a lock-entry map as `ParseGoSum` produces it: keys
are unique and each key is `modulePath@version` of its entry. -/
def GoSumWellFormed (entries : List (String × GoSumEntry)) : Prop :=
  (keys entries).Nodup ∧
    ∀ q ∈ entries, q.1 = q.2.modulePath ++ "@" ++ q.2.version

instance : DecidablePred GoSumWellFormed := fun entries => by
  unfold GoSumWellFormed; infer_instance

/-! ## `addTransLoop` lemmas -/


/-- The node synthesized for a lock-only module. -/
def synthNode (t : GoSumEntry) : Node :=
  { name := t.modulePath, version := t.version, direct := false, children := [] }

/-- The enhanced node synthesized for a lock-only module. -/
def synthEnhanced (t : GoSumEntry) : EnhancedNode :=
  { node := synthNode t, hash := t.hash, conflicts := [], securityIssues := [],
    license := "" }

/-! ## `enrichGraph` characterization -/


/-- The enriched graph after the wrapping loop, before lock-only modules
are merged (the state of `enhancedGraph` at line 82 of the source). -/
def enrichBase (modFile : ModFile) (b : DependencyGraph)
    (entries : List (String × GoSumEntry)) : EnhancedDependencyGraph :=
  { base := b
    enhancedNodes :=
      b.allNodes.foldl (fun m p => mapInsert p.1 (wrapNode entries p.1 p.2) m) []
    goSumEntries := entries
    conflicts := []
    securityIssues := []
    licensesSummary := [] }

/-! ## Concrete fixtures -/


/-- The spec's end-to-end manifest: one direct, one indirect requirement. -/
def exampleModFile : ModFile :=
  { modulePath := "example.com/app"
    goVersion := some "1.21"
    require := [⟨"moduleA", "v1.2.0", false⟩, ⟨"moduleB", "v0.3.0", true⟩] }

/-- Lock entries for the example manifest, with a lock-only module
`moduleC` present at three versions. -/
def exampleEntries : List (String × GoSumEntry) :=
  [("moduleA@v1.2.0", ⟨"moduleA", "v1.2.0", "h1:aaa"⟩),
   ("moduleB@v0.3.0", ⟨"moduleB", "v0.3.0", "h1:bbb"⟩),
   ("moduleC@v1.0.0", ⟨"moduleC", "v1.0.0", "h1:c1"⟩),
   ("moduleC@v1.1.0", ⟨"moduleC", "v1.1.0", "h1:c2"⟩),
   ("moduleC@v1.2.0", ⟨"moduleC", "v1.2.0", "h1:c3"⟩)]

/-- A manifest with no requirements at all. -/
def emptyModFile : ModFile :=
  { modulePath := "example.com/app", goVersion := none, require := [] }

/-- One enhanced node of the example graph after the license pass. -/
def examplePair : String × EnhancedNode :=
  ("moduleA",
   { node := requireNode ⟨"moduleA", "v1.2.0", false⟩
     hash := "h1:aaa"
     conflicts := []
     securityIssues := []
     license := "Unknown" })

/-! ## Version-map lemmas -/


/-- Go map read with the zero value `[]` for a missing key. -/
def lookupMulti (k : String) (m : List (String × List String)) : List String :=
  (lookupKey k m).getD []

/-- The conflict block `DetectVersionConflicts` generates for one module
path, read off the version map. -/
def pathBlock (vm : List (String × List String)) (name : String) : List VersionConflict :=
  match lookupKey name vm with
  | some versions => if versions.length > 1 then conflictsFor name versions else []
  | none => []

/-! ## Theorems -/

@[simp] theorem lookupKey_nil {k : String} : lookupKey (α := α) k [] = none := rfl

@[simp] theorem lookupKey_cons {k : String} {p : String × α} {m : List (String × α)} :
    lookupKey k (p :: m) = if p.1 = k then some p.2 else lookupKey k m := rfl

@[simp] theorem keys_nil : keys (α := α) [] = [] := rfl

@[simp] theorem keys_cons {p : String × α} {m : List (String × α)} :
    keys (p :: m) = p.1 :: keys m := rfl

@[simp] theorem keys_append {m₁ m₂ : List (String × α)} :
    keys (m₁ ++ m₂) = keys m₁ ++ keys m₂ := List.map_append _ _ _

theorem lookupKey_isSome_iff {k : String} {m : List (String × α)} :
    (lookupKey k m).isSome ↔ k ∈ keys m := by
  induction m with
  | nil => simp
  | cons p m ih =>
    by_cases h : p.1 = k <;> simp [h, ih]
    exact fun h' => (h h'.symm).elim

theorem lookupKey_eq_none_iff {k : String} {m : List (String × α)} :
    lookupKey k m = none ↔ k ∉ keys m := by
  rw [← lookupKey_isSome_iff]
  cases lookupKey k m <;> simp

theorem lookupKey_append {k : String} {m₁ m₂ : List (String × α)} :
    lookupKey k (m₁ ++ m₂) =
      match lookupKey k m₁ with
      | some v => some v
      | none => lookupKey k m₂ := by
  induction m₁ with
  | nil => simp
  | cons p m ih =>
    by_cases h : p.1 = k <;> simp [h, ih]

theorem mapInsert_of_not_mem {k : String} {v : α} {m : List (String × α)}
    (h : k ∉ keys m) : mapInsert k v m = m ++ [(k, v)] := by
  rw [mapInsert, if_neg]
  simp [lookupKey_isSome_iff, h]

theorem keys_overwrite {k : String} {v : α} {m : List (String × α)} :
    keys (m.map (fun p => if p.1 = k then (k, v) else p)) = keys m := by
  induction m with
  | nil => rfl
  | cons p m ih =>
    by_cases hp : p.1 = k <;> simp [keys, hp] <;> simpa [keys] using ih

theorem lookupKey_overwrite_ne {k k' : String} {v : α} {m : List (String × α)}
    (h : k' ≠ k) :
    lookupKey k' (m.map (fun p => if p.1 = k then (k, v) else p)) = lookupKey k' m := by
  induction m with
  | nil => rfl
  | cons p m ih =>
    by_cases hp : p.1 = k
    · have hne : ¬ (k = k') := fun hh => h hh.symm
      have hne' : ¬ (p.1 = k') := by rw [hp]; exact hne
      simp [hp, hne, hne', ih]
    · by_cases hp' : p.1 = k' <;> simp [hp, hp', h, ih]

theorem keys_mapInsert {k : String} {v : α} {m : List (String × α)} :
    keys (mapInsert k v m) = if k ∈ keys m then keys m else keys m ++ [k] := by
  by_cases h : k ∈ keys m
  · rw [mapInsert, if_pos (lookupKey_isSome_iff.mpr h), if_pos h, keys_overwrite]
  · rw [mapInsert_of_not_mem h, if_neg h, keys_append]
    rfl

theorem mem_keys_mapInsert {x k : String} {v : α} {m : List (String × α)} :
    x ∈ keys (mapInsert k v m) ↔ x ∈ keys m ∨ x = k := by
  rw [keys_mapInsert]
  by_cases h : k ∈ keys m
  · rw [if_pos h]
    constructor
    · exact Or.inl
    · rintro (hx | rfl)
      · exact hx
      · exact h
  · rw [if_neg h]
    simp

theorem keys_nodup_mapInsert {k : String} {v : α} {m : List (String × α)}
    (h : (keys m).Nodup) : (keys (mapInsert k v m)).Nodup := by
  rw [keys_mapInsert]
  by_cases hk : k ∈ keys m
  · rwa [if_pos hk]
  · rw [if_neg hk]
    simpa [List.nodup_append] using ⟨h, fun hx => hk hx⟩

theorem lookupKey_overwrite_self {k : String} {v : α} :
    ∀ {m : List (String × α)}, k ∈ keys m →
      lookupKey k (m.map (fun p => if p.1 = k then (k, v) else p)) = some v := by
  intro m
  induction m with
  | nil => intro h; simp [keys] at h
  | cons p m ih =>
    intro h
    by_cases hp : p.1 = k
    · simp [hp]
    · simp only [keys_cons, List.mem_cons] at h
      rcases h with h | h
      · exact (hp h.symm).elim
      · simpa [hp] using ih h

theorem lookupKey_mapInsert_self {k : String} {v : α} {m : List (String × α)} :
    lookupKey k (mapInsert k v m) = some v := by
  by_cases h : k ∈ keys m
  · rw [mapInsert, if_pos (lookupKey_isSome_iff.mpr h)]
    exact lookupKey_overwrite_self h
  · rw [mapInsert_of_not_mem h, lookupKey_append, (lookupKey_eq_none_iff).mpr h]
    simp

theorem lookupKey_mapInsert_ne {k k' : String} {v : α} {m : List (String × α)}
    (h : k' ≠ k) : lookupKey k' (mapInsert k v m) = lookupKey k' m := by
  by_cases hk : k ∈ keys m
  · rw [mapInsert, if_pos (lookupKey_isSome_iff.mpr hk)]
    exact lookupKey_overwrite_ne h
  · have hne : ¬ (k = k') := fun hh => h hh.symm
    rw [mapInsert_of_not_mem hk, lookupKey_append]
    cases hl : lookupKey k' m <;> simp [hl, hne]

theorem length_mapInsert {k : String} {v : α} {m : List (String × α)} :
    (mapInsert k v m).length = if k ∈ keys m then m.length else m.length + 1 := by
  by_cases h : k ∈ keys m
  · rw [if_pos h, mapInsert, if_pos (lookupKey_isSome_iff.mpr h), List.length_map]
  · rw [if_neg h, mapInsert_of_not_mem h, List.length_append, List.length_cons,
      List.length_nil]

/-! ## Loop characterizations -/


theorem analyzeLicenses_loop (l : List (String × EnhancedNode)) :
    ∀ (a : List (String × EnhancedNode)) (c : List (String × Nat)),
      l.foldl (fun st p =>
        let license := classifyLicense p.1
        (st.1 ++ [(p.1, { p.2 with license := license })], bumpCount license st.2)) (a, c) =
      (a ++ l.map (fun p => (p.1, { p.2 with license := classifyLicense p.1 })),
       l.foldl (fun s p => bumpCount (classifyLicense p.1) s) c) := by
  induction l with
  | nil => intro a c; simp
  | cons p l ih => intro a c; simp [ih]

/-- What one `AnalyzeLicenses` run does: relabel every enhanced node with
its classified license and bump one summary bucket per node. -/
theorem analyzeLicenses_eq (g : EnhancedDependencyGraph) :
    AnalyzeLicenses g =
      { g with
        enhancedNodes :=
          g.enhancedNodes.map (fun p => (p.1, { p.2 with license := classifyLicense p.1 }))
        licensesSummary :=
          g.enhancedNodes.foldl (fun s p => bumpCount (classifyLicense p.1) s)
            g.licensesSummary } := by
  unfold AnalyzeLicenses
  rw [analyzeLicenses_loop]
  simp

theorem checkSecurity_loop (rootName : String) (l : List (String × EnhancedNode)) :
    ∀ (a : List (String × EnhancedNode)) (c : List SecurityIssue),
      l.foldl (fun st p =>
        if p.1 = rootName then (st.1 ++ [p], st.2)
        else
          let issues := nodeSecurityIssues p.1 p.2.node.version
          (st.1 ++ [(p.1, { p.2 with securityIssues := p.2.securityIssues ++ issues })],
           st.2 ++ issues)) (a, c) =
      (a ++ l.map (fun p =>
          if p.1 = rootName then p
          else (p.1, { p.2 with
            securityIssues := p.2.securityIssues ++ nodeSecurityIssues p.1 p.2.node.version })),
       c ++ l.flatMap (fun p =>
          if p.1 = rootName then []
          else nodeSecurityIssues p.1 p.2.node.version)) := by
  induction l with
  | nil => intro a c; simp
  | cons p l ih =>
    intro a c
    by_cases hp : p.1 = rootName <;> simp [hp, ih]

/-- What one `CheckSecurity` run does: append each non-root node's rule
matches to that node and to the graph list; the root entry is copied
unchanged. -/
theorem checkSecurity_eq (g : EnhancedDependencyGraph) :
    CheckSecurity g =
      { g with
        enhancedNodes := g.enhancedNodes.map (fun p =>
          if p.1 = g.base.root.name then p
          else (p.1, { p.2 with
            securityIssues := p.2.securityIssues ++ nodeSecurityIssues p.1 p.2.node.version }))
        securityIssues := g.securityIssues ++ g.enhancedNodes.flatMap (fun p =>
          if p.1 = g.base.root.name then []
          else nodeSecurityIssues p.1 p.2.node.version) } := by
  unfold CheckSecurity
  rw [checkSecurity_loop]
  simp

/-! ## Histogram lemmas -/


theorem lookupKey_bumpMap_self {k : String} :
    ∀ {m : List (String × Nat)},
      lookupKey k (m.map (fun p => if p.1 = k then (p.1, p.2 + 1) else p)) =
        (lookupKey k m).map (· + 1) := by
  intro m
  induction m with
  | nil => rfl
  | cons p m ih => by_cases hp : p.1 = k <;> simp [hp, ih]

theorem lookupKey_bumpMap_ne {k k' : String} (h : k' ≠ k) :
    ∀ {m : List (String × Nat)},
      lookupKey k' (m.map (fun p => if p.1 = k then (p.1, p.2 + 1) else p)) =
        lookupKey k' m := by
  intro m
  induction m with
  | nil => rfl
  | cons p m ih =>
    have hne : ¬ (k = k') := fun hh => h hh.symm
    by_cases hp : p.1 = k
    · have hp' : ¬ (p.1 = k') := by rw [hp]; exact hne
      simp [hp, hp', hne, ih]
    · by_cases hp' : p.1 = k' <;> simp [hp, hp', h, hne, ih]

theorem keys_bumpMap {k : String} :
    ∀ {m : List (String × Nat)},
      keys (m.map (fun p => if p.1 = k then (p.1, p.2 + 1) else p)) = keys m := by
  intro m
  induction m with
  | nil => rfl
  | cons p m ih =>
    by_cases hp : p.1 = k <;> simp [keys, hp] <;> simpa [keys] using ih

theorem bumpMap_of_not_mem {k : String} :
    ∀ {m : List (String × Nat)}, k ∉ keys m →
      m.map (fun p => if p.1 = k then (p.1, p.2 + 1) else p) = m := by
  intro m
  induction m with
  | nil => intro _; rfl
  | cons p m ih =>
    intro h
    rw [keys_cons, List.mem_cons] at h
    push_neg at h
    have hp : ¬ (p.1 = k) := fun hh => h.1 hh.symm
    simp [hp, ih h.2]

theorem countOf_bumpCount_self {k : String} {m : List (String × Nat)} :
    countOf k (bumpCount k m) = countOf k m + 1 := by
  by_cases h : k ∈ keys m
  · rw [bumpCount, if_pos (lookupKey_isSome_iff.mpr h)]
    unfold countOf
    rw [lookupKey_bumpMap_self]
    rcases Option.isSome_iff_exists.mp (lookupKey_isSome_iff.mpr h) with ⟨v, hv⟩
    simp [hv]
  · rw [bumpCount, if_neg (by simpa [lookupKey_isSome_iff] using h)]
    unfold countOf
    rw [lookupKey_append, (lookupKey_eq_none_iff).mpr h]
    simp [lookupKey_eq_none_iff.mpr h]

theorem countOf_bumpCount_ne {k k' : String} {m : List (String × Nat)}
    (h : k' ≠ k) : countOf k' (bumpCount k m) = countOf k' m := by
  have hne : ¬ (k = k') := fun hh => h hh.symm
  by_cases hk : k ∈ keys m
  · rw [bumpCount, if_pos (lookupKey_isSome_iff.mpr hk)]
    unfold countOf
    rw [lookupKey_bumpMap_ne h]
  · rw [bumpCount, if_neg (by simpa [lookupKey_isSome_iff] using hk)]
    unfold countOf
    rw [lookupKey_append]
    cases hl : lookupKey k' m <;> simp [hl, hne]

theorem keys_bumpCount {k : String} {m : List (String × Nat)} :
    keys (bumpCount k m) = if k ∈ keys m then keys m else keys m ++ [k] := by
  by_cases h : k ∈ keys m
  · rw [if_pos h, bumpCount, if_pos (lookupKey_isSome_iff.mpr h), keys_bumpMap]
  · rw [if_neg h, bumpCount, if_neg (by simpa [lookupKey_isSome_iff] using h), keys_append]
    rfl

theorem keys_nodup_bumpCount {k : String} {m : List (String × Nat)}
    (h : (keys m).Nodup) : (keys (bumpCount k m)).Nodup := by
  rw [keys_bumpCount]
  by_cases hk : k ∈ keys m
  · rwa [if_pos hk]
  · rw [if_neg hk]
    simpa [List.nodup_append] using ⟨h, fun hx => hk hx⟩

theorem countSum_bumpMap {k : String} :
    ∀ {m : List (String × Nat)}, (keys m).Nodup → k ∈ keys m →
      countSum (m.map (fun p => if p.1 = k then (p.1, p.2 + 1) else p)) =
        countSum m + 1 := by
  intro m
  induction m with
  | nil => intro _ hk; simp [keys] at hk
  | cons p m ih =>
    intro hnd hk
    have hndm : (keys m).Nodup := (List.nodup_cons.mp (by simpa [keys] using hnd)).2
    have hpm : p.1 ∉ keys m := (List.nodup_cons.mp (by simpa [keys] using hnd)).1
    by_cases hp : p.1 = k
    · have hknotin : k ∉ keys m := hp ▸ hpm
      simp only [List.map_cons, hp, if_pos rfl, bumpMap_of_not_mem hknotin]
      simp [countSum]
      omega
    · have hk' : k ∈ keys m := by
        rcases (by simpa [keys] using hk : k = p.1 ∨ k ∈ keys m) with h | h
        · exact absurd h.symm hp
        · exact h
      have := ih hndm hk'
      simp only [List.map_cons, if_neg hp]
      simp only [countSum, List.map_cons, List.sum_cons] at this ⊢
      omega

theorem countSum_bumpCount {k : String} {m : List (String × Nat)}
    (h : (keys m).Nodup) : countSum (bumpCount k m) = countSum m + 1 := by
  by_cases hk : k ∈ keys m
  · rw [bumpCount, if_pos (lookupKey_isSome_iff.mpr hk)]
    exact countSum_bumpMap h hk
  · rw [bumpCount, if_neg (by simpa [lookupKey_isSome_iff] using hk)]
    simp [countSum]

theorem foldl_bump_countOf {α : Type*} (key : α → String) (k : String) :
    ∀ (l : List α) (m : List (String × Nat)),
      countOf k (l.foldl (fun s p => bumpCount (key p) s) m) =
        countOf k m + (l.map key).count k := by
  intro l
  induction l with
  | nil => intro m; simp
  | cons p l ih =>
    intro m
    simp only [List.foldl_cons, List.map_cons]
    rw [ih]
    by_cases hp : key p = k
    · rw [hp, countOf_bumpCount_self]
      have : (k :: l.map key).count k = (l.map key).count k + 1 := by
        simp [List.count_cons]
      rw [this]
      omega
    · rw [countOf_bumpCount_ne (fun hh => hp hh.symm)]
      have hkk : ¬ (k = key p) := fun hh => hp hh.symm
      have : (key p :: l.map key).count k = (l.map key).count k := by
        simp [List.count_cons, hkk]
      rw [this]

theorem foldl_bump_nodup {α : Type*} (key : α → String) :
    ∀ (l : List α) (m : List (String × Nat)), (keys m).Nodup →
      (keys (l.foldl (fun s p => bumpCount (key p) s) m)).Nodup := by
  intro l
  induction l with
  | nil => intro m hm; simpa
  | cons p l ih => intro m hm; exact ih _ (keys_nodup_bumpCount hm)

theorem foldl_bump_countSum {α : Type*} (key : α → String) :
    ∀ (l : List α) (m : List (String × Nat)), (keys m).Nodup →
      countSum (l.foldl (fun s p => bumpCount (key p) s) m) = countSum m + l.length := by
  intro l
  induction l with
  | nil => intro m hm; simp
  | cons p l ih =>
    intro m hm
    simp only [List.foldl_cons, List.length_cons]
    rw [ih _ (keys_nodup_bumpCount hm), countSum_bumpCount hm]
    omega

/-! ## Generic fold-over-insert lemmas -/


theorem foldl_mapInsert_nodup {α β : Type*} (key : α → String) (val : α → β) :
    ∀ (l : List α) (m : List (String × β)), (keys m).Nodup →
      (keys (l.foldl (fun acc x => mapInsert (key x) (val x) acc) m)).Nodup := by
  intro l
  induction l with
  | nil => intro m hm; simpa
  | cons x l ih => intro m hm; exact ih _ (keys_nodup_mapInsert hm)

theorem foldl_mapInsert_mem {α β : Type*} (key : α → String) (val : α → β) {k : String} :
    ∀ (l : List α) (m : List (String × β)),
      k ∈ keys (l.foldl (fun acc x => mapInsert (key x) (val x) acc) m) ↔
        k ∈ keys m ∨ k ∈ l.map key := by
  intro l
  induction l with
  | nil => intro m; simp
  | cons x l ih =>
    intro m
    rw [List.foldl_cons, ih]
    rw [mem_keys_mapInsert]
    simp only [List.map_cons, List.mem_cons]
    constructor
    · rintro ((h | h) | h)
      · exact Or.inl h
      · exact Or.inr (Or.inl h)
      · exact Or.inr (Or.inr h)
    · rintro (h | h | h)
      · exact Or.inl (Or.inl h)
      · exact Or.inl (Or.inr h)
      · exact Or.inr h

theorem foldl_mapInsert_fresh {α β : Type*} (key : α → String) (val : α → β) :
    ∀ (l : List α) (m : List (String × β)), (keys m ++ l.map key).Nodup →
      l.foldl (fun acc x => mapInsert (key x) (val x) acc) m =
        m ++ l.map (fun x => (key x, val x)) := by
  intro l
  induction l with
  | nil => intro m _; simp
  | cons x l ih =>
    intro m hnd
    have hx : key x ∉ keys m := by
      intro hmem
      rcases List.nodup_append.mp hnd with ⟨_, _, hdisj⟩
      exact hdisj hmem (by simp)
    rw [List.foldl_cons, mapInsert_of_not_mem hx]
    have hnd' : (keys (m ++ [(key x, val x)]) ++ l.map key).Nodup := by
      rw [keys_append]
      have : keys m ++ keys [(key x, val x)] ++ l.map key =
          keys m ++ (key x :: l.map key) := by
        simp [keys]
      rw [this]
      exact hnd
    rw [ih _ hnd']
    simp

theorem keys_map_snd {α β : Type*} (f : String × α → β) {m : List (String × α)} :
    keys (m.map (fun p => (p.1, f p))) = keys m := by
  induction m with
  | nil => rfl
  | cons p m ih =>
    simp only [List.map_cons, keys_cons]
    rw [ih]

theorem filter_key_length {α : Type*} (k : String) :
    ∀ (m : List (String × α)),
      (m.filter (fun p => p.1 = k)).length = (keys m).count k := by
  intro m
  induction m with
  | nil => rfl
  | cons p m ih =>
    by_cases hp : p.1 = k
    · simp [hp, List.count_cons, ih]
    · have : ¬ (k = p.1) := fun hh => hp hh.symm
      simp [hp, List.count_cons, this, ih]

theorem length_filter_partition {α : Type*} (f : α → Bool) :
    ∀ (l : List α), l.length = (l.filter f).length + (l.filter (fun x => !(f x))).length := by
  intro l
  induction l with
  | nil => rfl
  | cons x l ih => cases hx : f x <;> simp [hx, ih] <;> omega

/-! ## Enrichment invariants -/


theorem addTransLoop_frame :
    ∀ (l : List GoSumEntry) (g : EnhancedDependencyGraph),
      (addTransLoop l g).goSumEntries = g.goSumEntries ∧
      (addTransLoop l g).conflicts = g.conflicts ∧
      (addTransLoop l g).securityIssues = g.securityIssues ∧
      (addTransLoop l g).licensesSummary = g.licensesSummary ∧
      (addTransLoop l g).base.root = g.base.root ∧
      (addTransLoop l g).base.moduleName = g.base.moduleName ∧
      (addTransLoop l g).base.moduleGoVersion = g.base.moduleGoVersion := by
  intro l
  induction l with
  | nil => intro g; exact ⟨rfl, rfl, rfl, rfl, rfl, rfl, rfl⟩
  | cons t l ih =>
    intro g
    rw [addTransLoop]
    by_cases h : (lookupKey t.modulePath g.enhancedNodes).isSome = true
    · rw [if_pos h]; exact ih g
    · rw [if_neg h]; exact ih _

@[simp] theorem enrichGraph_goSumEntries {modFile : ModFile} {b : DependencyGraph}
    {entries : List (String × GoSumEntry)} :
    (enrichGraph modFile b entries).goSumEntries = entries :=
  (addTransLoop_frame _ _).1

@[simp] theorem enrichGraph_conflicts {modFile : ModFile} {b : DependencyGraph}
    {entries : List (String × GoSumEntry)} :
    (enrichGraph modFile b entries).conflicts = [] :=
  (addTransLoop_frame _ _).2.1

@[simp] theorem enrichGraph_securityIssues {modFile : ModFile} {b : DependencyGraph}
    {entries : List (String × GoSumEntry)} :
    (enrichGraph modFile b entries).securityIssues = [] :=
  (addTransLoop_frame _ _).2.2.1

@[simp] theorem enrichGraph_licensesSummary {modFile : ModFile} {b : DependencyGraph}
    {entries : List (String × GoSumEntry)} :
    (enrichGraph modFile b entries).licensesSummary = [] :=
  (addTransLoop_frame _ _).2.2.2.1

@[simp] theorem enrichGraph_root {modFile : ModFile} {b : DependencyGraph}
    {entries : List (String × GoSumEntry)} :
    (enrichGraph modFile b entries).base.root = b.root :=
  (addTransLoop_frame _ _).2.2.2.2.1

@[simp] theorem countOf_nil {k : String} : countOf k [] = 0 := rfl

theorem lookupKey_mem {k : String} {v : α} :
    ∀ {m : List (String × α)}, lookupKey k m = some v → (k, v) ∈ m := by
  intro m
  induction m with
  | nil => intro h; simp at h
  | cons p m ih =>
    intro h
    by_cases hp : p.1 = k
    · rw [lookupKey_cons, if_pos hp] at h
      have hv : p.2 = v := by injection h
      exact List.mem_cons.mpr (Or.inl (by rw [← hp, ← hv]))
    · rw [lookupKey_cons, if_neg hp] at h
      exact List.mem_cons_of_mem _ (ih h)

/-! ## Base graph builder lemmas -/


@[simp] theorem build_root_name {modFile : ModFile} :
    (BuildDependencyGraph modFile).root.name = modFile.modulePath := rfl

@[simp] theorem build_root_version {modFile : ModFile} :
    (BuildDependencyGraph modFile).root.version = "main" := rfl

@[simp] theorem build_root_direct {modFile : ModFile} :
    (BuildDependencyGraph modFile).root.direct = true := rfl

@[simp] theorem build_root_children {modFile : ModFile} :
    (BuildDependencyGraph modFile).root.children =
      (modFile.require.filter (fun r => !r.indirect)).map (·.path) := rfl

theorem build_allNodes_def (modFile : ModFile) :
    (BuildDependencyGraph modFile).allNodes =
      modFile.require.foldl (fun acc r => mapInsert r.path (requireNode r) acc)
        (mapInsert modFile.modulePath (rootNode modFile) []) := rfl

theorem build_allNodes_keys_nodup (modFile : ModFile) :
    (keys (BuildDependencyGraph modFile).allNodes).Nodup := by
  rw [build_allNodes_def]
  exact foldl_mapInsert_nodup (·.path) requireNode modFile.require
    (mapInsert modFile.modulePath (rootNode modFile) [])
    (by rw [mapInsert_of_not_mem (by simp [keys])]; simp [keys])

theorem build_mem_keys_iff {modFile : ModFile} {x : String} :
    x ∈ keys (BuildDependencyGraph modFile).allNodes ↔
      x = modFile.modulePath ∨ x ∈ modFile.require.map (·.path) := by
  rw [build_allNodes_def]
  rw [foldl_mapInsert_mem (·.path) requireNode modFile.require _]
  rw [mapInsert_of_not_mem (by simp [keys])]
  simp [keys]

theorem build_root_mem_keys (modFile : ModFile) :
    modFile.modulePath ∈ keys (BuildDependencyGraph modFile).allNodes :=
  build_mem_keys_iff.mpr (Or.inl rfl)

/-- With pairwise-distinct declared paths also distinct from the module
path, the builder's map is the root entry followed by one entry per
require, in order. -/
theorem build_allNodes_eq {modFile : ModFile}
    (h : (modFile.modulePath :: modFile.require.map (·.path)).Nodup) :
    (BuildDependencyGraph modFile).allNodes =
      (modFile.modulePath, rootNode modFile) ::
        modFile.require.map (fun r => (r.path, requireNode r)) := by
  rw [build_allNodes_def]
  rw [mapInsert_of_not_mem (by simp [keys])]
  rw [foldl_mapInsert_fresh (·.path) requireNode modFile.require _
    (by simpa [keys] using h)]
  simp

/-! ## `GetTransitiveDependencies` lemmas -/


theorem transCond_iff {dd seen : List String} {x : String} :
    (!(dd.contains x) && !(seen.contains x)) = true ↔ (x ∉ dd ∧ x ∉ seen) := by
  simp

theorem transLoop_mem_sub {dd : List String} :
    ∀ {entries : List (String × GoSumEntry)} {seen : List String} {e : GoSumEntry},
      e ∈ transLoop dd seen entries →
        e ∈ entries.map (·.2) ∧ e.modulePath ∉ dd ∧ e.modulePath ∉ seen := by
  intro entries
  induction entries with
  | nil => intro seen e h; simp [transLoop] at h
  | cons p rest ih =>
    intro seen e h
    rw [transLoop] at h
    by_cases hc : p.2.modulePath ∉ dd ∧ p.2.modulePath ∉ seen
    · rw [if_pos (transCond_iff.mpr hc)] at h
      rcases List.mem_cons.mp h with rfl | h
      · exact ⟨by simp, hc.1, hc.2⟩
      · obtain ⟨h1, h2, h3⟩ := ih h
        refine ⟨List.mem_cons_of_mem _ h1, h2, fun hs => h3 ?_⟩
        exact List.mem_append_left _ hs
    · rw [if_neg (fun hcc => hc (transCond_iff.mp hcc))] at h
      obtain ⟨h1, h2, h3⟩ := ih h
      exact ⟨List.mem_cons_of_mem _ h1, h2, h3⟩

theorem transLoop_paths_nodup {dd : List String} :
    ∀ {entries : List (String × GoSumEntry)} {seen : List String},
      ((transLoop dd seen entries).map (·.modulePath)).Nodup := by
  intro entries
  induction entries with
  | nil => intro seen; simp [transLoop]
  | cons p rest ih =>
    intro seen
    rw [transLoop]
    by_cases hc : p.2.modulePath ∉ dd ∧ p.2.modulePath ∉ seen
    · rw [if_pos (transCond_iff.mpr hc)]
      simp only [List.map_cons, List.nodup_cons]
      refine ⟨fun hmem => ?_, ih⟩
      rcases List.mem_map.mp hmem with ⟨e, he, hpath⟩
      have := (transLoop_mem_sub he).2.2
      exact this (by rw [hpath]; exact List.mem_append_right _ (by simp))
    · rw [if_neg (fun hcc => hc (transCond_iff.mp hcc))]
      exact ih

theorem transLoop_complete {dd : List String} {x : String} :
    ∀ {entries : List (String × GoSumEntry)} {seen : List String},
      x ∈ (entries.map (·.2)).map (·.modulePath) → x ∉ dd →
        x ∈ seen ∨ x ∈ (transLoop dd seen entries).map (·.modulePath) := by
  intro entries
  induction entries with
  | nil => intro seen h _; simp at h
  | cons p rest ih =>
    intro seen hx hdd
    rw [List.map_cons, List.map_cons, List.mem_cons] at hx
    rw [transLoop]
    by_cases hc : p.2.modulePath ∉ dd ∧ p.2.modulePath ∉ seen
    · rw [if_pos (transCond_iff.mpr hc)]
      rcases hx with rfl | hx'
      · right
        simp
      · rcases ih hx' hdd with hs | ht
        · rcases List.mem_append.mp hs with hs | hs
          · exact Or.inl hs
          · right
            simp only [List.map_cons, List.mem_cons]
            left
            exact List.mem_singleton.mp hs
        · right
          exact List.mem_cons_of_mem _ ht
    · rw [if_neg (fun hcc => hc (transCond_iff.mp hcc))]
      rcases hx with rfl | hx'
      · rcases Decidable.not_and_iff_or_not.mp hc with h | h
        · exact absurd (Decidable.not_not.mp h) hdd
        · exact Or.inl (Decidable.not_not.mp h)
      · exact ih hx' hdd

/-- Every entry kept by `transLoop` is the first lock entry carrying its
module path (the representative that supplies the synthesized hash). -/
theorem transLoop_first {dd : List String} :
    ∀ {entries : List (String × GoSumEntry)} {seen : List String} {e : GoSumEntry},
      e ∈ transLoop dd seen entries →
        (entries.map (·.2)).find? (fun x => x.modulePath = e.modulePath) = some e := by
  intro entries
  induction entries with
  | nil => intro seen e h; simp [transLoop] at h
  | cons p rest ih =>
    intro seen e h
    rw [transLoop] at h
    by_cases hc : p.2.modulePath ∉ dd ∧ p.2.modulePath ∉ seen
    · rw [if_pos (transCond_iff.mpr hc)] at h
      rcases List.mem_cons.mp h with rfl | h'
      · rw [List.map_cons]
        rw [List.find?_cons_of_pos _ (by simp)]
      · have hne : p.2.modulePath ≠ e.modulePath := by
          have := (transLoop_mem_sub h').2.2
          intro hcontra
          exact this (hcontra ▸ List.mem_append_right _ (by simp))
        rw [List.map_cons]
        rw [List.find?_cons_of_neg _ (by simpa using hne)]
        exact ih h'
    · rw [if_neg (fun hcc => hc (transCond_iff.mp hcc))] at h
      have hne : p.2.modulePath ≠ e.modulePath := by
        obtain ⟨_, hdd, hseen⟩ := transLoop_mem_sub h
        intro hcontra
        exact hc ⟨hcontra ▸ hdd, hcontra ▸ hseen⟩
      rw [List.map_cons]
      rw [List.find?_cons_of_neg _ (by simpa using hne)]
      exact ih h

theorem addTransLoop_def (t : GoSumEntry) (l : List GoSumEntry)
    (g : EnhancedDependencyGraph) :
    addTransLoop (t :: l) g =
      if (lookupKey t.modulePath g.enhancedNodes).isSome then addTransLoop l g
      else addTransLoop l
        { g with
          enhancedNodes := mapInsert t.modulePath (synthEnhanced t) g.enhancedNodes
          base := { g.base with
            allNodes := mapInsert t.modulePath (synthNode t) g.base.allNodes } } := rfl

theorem addTransLoop_keys :
    ∀ (l : List GoSumEntry), ((l.map (·.modulePath)).Nodup) →
      ∀ (g : EnhancedDependencyGraph),
        keys (addTransLoop l g).enhancedNodes =
          keys g.enhancedNodes ++
            (l.map (·.modulePath)).filter (fun x => x ∉ keys g.enhancedNodes) := by
  intro l
  induction l with
  | nil => intro _ g; simp [addTransLoop]
  | cons t l ih =>
    intro hnd g
    rw [List.map_cons, List.nodup_cons] at hnd
    rw [addTransLoop_def]
    by_cases hmem : t.modulePath ∈ keys g.enhancedNodes
    · rw [if_pos (lookupKey_isSome_iff.mpr hmem)]
      rw [ih hnd.2 g]
      congr 1
      rw [List.map_cons, List.filter_cons]
      rw [if_neg (by simpa using hmem)]
    · rw [if_neg (by rw [lookupKey_isSome_iff]; simpa using hmem)]
      rw [ih hnd.2]
      simp only [keys_mapInsert, if_neg hmem]
      rw [List.map_cons, List.filter_cons, if_pos (by simpa using hmem)]
      rw [List.append_assoc]
      congr 1
      rw [List.singleton_append]
      congr 1
      apply List.filter_congr
      intro x hx
      have hxt : x ≠ t.modulePath := fun hc => hnd.1 (hc ▸ hx)
      simp [hxt]

theorem addTransLoop_allNodes_keys :
    ∀ (l : List GoSumEntry) (g : EnhancedDependencyGraph),
      keys g.base.allNodes = keys g.enhancedNodes →
        keys (addTransLoop l g).base.allNodes = keys (addTransLoop l g).enhancedNodes := by
  intro l
  induction l with
  | nil => intro g h; simpa [addTransLoop]
  | cons t l ih =>
    intro g h
    rw [addTransLoop_def]
    by_cases hmem : t.modulePath ∈ keys g.enhancedNodes
    · rw [if_pos (lookupKey_isSome_iff.mpr hmem)]
      exact ih g h
    · rw [if_neg (by rw [lookupKey_isSome_iff]; simpa using hmem)]
      apply ih
      simp only [keys_mapInsert, h]

theorem addTransLoop_lookup_preserved :
    ∀ (l : List GoSumEntry) (g : EnhancedDependencyGraph) (k : String),
      k ∈ keys g.enhancedNodes →
        lookupKey k (addTransLoop l g).enhancedNodes = lookupKey k g.enhancedNodes ∧
        lookupKey k (addTransLoop l g).base.allNodes = lookupKey k g.base.allNodes := by
  intro l
  induction l with
  | nil => intro g k _; exact ⟨rfl, rfl⟩
  | cons t l ih =>
    intro g k hk
    rw [addTransLoop_def]
    by_cases hmem : t.modulePath ∈ keys g.enhancedNodes
    · rw [if_pos (lookupKey_isSome_iff.mpr hmem)]
      exact ih g k hk
    · rw [if_neg (by rw [lookupKey_isSome_iff]; simpa using hmem)]
      have hne : k ≠ t.modulePath := fun hc => hmem (hc ▸ hk)
      have := ih
        { g with
          enhancedNodes := mapInsert t.modulePath (synthEnhanced t) g.enhancedNodes
          base := { g.base with
            allNodes := mapInsert t.modulePath (synthNode t) g.base.allNodes } }
        k (by simpa [mem_keys_mapInsert] using Or.inl hk)
      rw [this.1, this.2]
      exact ⟨lookupKey_mapInsert_ne hne, lookupKey_mapInsert_ne hne⟩

theorem addTransLoop_lookup_fresh :
    ∀ (l : List GoSumEntry), ((l.map (·.modulePath)).Nodup) →
      ∀ (g : EnhancedDependencyGraph) (t : GoSumEntry), t ∈ l →
        t.modulePath ∉ keys g.enhancedNodes →
          lookupKey t.modulePath (addTransLoop l g).enhancedNodes =
            some (synthEnhanced t) ∧
          lookupKey t.modulePath (addTransLoop l g).base.allNodes =
            some (synthNode t) := by
  intro l
  induction l with
  | nil => intro _ g t ht; simp at ht
  | cons u l ih =>
    intro hnd g t ht hfresh
    rw [List.map_cons, List.nodup_cons] at hnd
    rw [addTransLoop_def]
    rcases List.mem_cons.mp ht with rfl | htl
    · rw [if_neg (by rw [lookupKey_isSome_iff]; simpa using hfresh)]
      have hpres := addTransLoop_lookup_preserved l
        { g with
          enhancedNodes := mapInsert t.modulePath (synthEnhanced t) g.enhancedNodes
          base := { g.base with
            allNodes := mapInsert t.modulePath (synthNode t) g.base.allNodes } }
        t.modulePath (by simp [mem_keys_mapInsert])
      rw [hpres.1, hpres.2]
      exact ⟨lookupKey_mapInsert_self, lookupKey_mapInsert_self⟩
    · have hne : t.modulePath ≠ u.modulePath := by
        intro hc
        exact hnd.1 (hc ▸ List.mem_map_of_mem (·.modulePath) htl)
      by_cases hmem : u.modulePath ∈ keys g.enhancedNodes
      · rw [if_pos (lookupKey_isSome_iff.mpr hmem)]
        exact ih hnd.2 g t htl hfresh
      · rw [if_neg (by rw [lookupKey_isSome_iff]; simpa using hmem)]
        apply ih hnd.2 _ t htl
        rw [mem_keys_mapInsert]
        rintro (h | h)
        · exact hfresh h
        · exact hne h

theorem addTransLoop_length_ge :
    ∀ (l : List GoSumEntry) (g : EnhancedDependencyGraph),
      g.base.allNodes.length ≤ (addTransLoop l g).base.allNodes.length := by
  intro l
  induction l with
  | nil => intro g; exact Nat.le_refl _
  | cons t l ih =>
    intro g
    rw [addTransLoop_def]
    by_cases hmem : (lookupKey t.modulePath g.enhancedNodes).isSome
    · rw [if_pos hmem]
      exact ih g
    · rw [if_neg hmem]
      refine Nat.le_trans ?_ (ih _)
      simp only [length_mapInsert]
      split <;> omega

theorem enrichGraph_def (modFile : ModFile) (b : DependencyGraph)
    (entries : List (String × GoSumEntry)) :
    enrichGraph modFile b entries =
      addTransLoop (GetTransitiveDependencies entries (GetDirectDependencies modFile))
        (enrichBase modFile b entries) := rfl

/-- When the base map's keys are unique (always true for built graphs),
the wrapping loop produces one enhanced node per base node, in order. -/
theorem enrich_wrapped_eq {b : DependencyGraph}
    (h : (keys b.allNodes).Nodup) (entries : List (String × GoSumEntry)) :
    b.allNodes.foldl (fun m p => mapInsert p.1 (wrapNode entries p.1 p.2) m) [] =
      b.allNodes.map (fun p => (p.1, wrapNode entries p.1 p.2)) := by
  have := foldl_mapInsert_fresh (Prod.fst) (fun p => wrapNode entries p.1 p.2)
    b.allNodes [] (by simpa [keys] using h)
  simpa [keys] using this

theorem getTransitiveDependencies_paths_nodup {entries : List (String × GoSumEntry)}
    {dd : List String} :
    ((GetTransitiveDependencies entries dd).map (·.modulePath)).Nodup :=
  transLoop_paths_nodup

theorem enrich_keys {modFile : ModFile} {b : DependencyGraph}
    {entries : List (String × GoSumEntry)} (h : (keys b.allNodes).Nodup) :
    keys (enrichGraph modFile b entries).enhancedNodes =
      keys b.allNodes ++
        ((GetTransitiveDependencies entries (GetDirectDependencies modFile)).map
          (·.modulePath)).filter (fun x => x ∉ keys b.allNodes) := by
  rw [enrichGraph_def]
  rw [addTransLoop_keys _ getTransitiveDependencies_paths_nodup]
  have h0 : keys (enrichBase modFile b entries).enhancedNodes = keys b.allNodes := by
    show keys (b.allNodes.foldl
      (fun m p => mapInsert p.1 (wrapNode entries p.1 p.2) m) []) = keys b.allNodes
    rw [enrich_wrapped_eq h, keys_map_snd]
  simp only [h0]

theorem enrich_keys_nodup {modFile : ModFile} {b : DependencyGraph}
    {entries : List (String × GoSumEntry)} (h : (keys b.allNodes).Nodup) :
    (keys (enrichGraph modFile b entries).enhancedNodes).Nodup := by
  rw [enrich_keys h]
  rw [List.nodup_append]
  refine ⟨h, List.Nodup.filter _ transLoop_paths_nodup, ?_⟩
  intro x hx hxf
  have hp := List.of_mem_filter hxf
  exact (of_decide_eq_true hp) hx

theorem enrich_base_keys {modFile : ModFile} {b : DependencyGraph}
    {entries : List (String × GoSumEntry)} (h : (keys b.allNodes).Nodup) :
    keys (enrichGraph modFile b entries).base.allNodes =
      keys (enrichGraph modFile b entries).enhancedNodes := by
  rw [enrichGraph_def]
  apply addTransLoop_allNodes_keys
  show keys b.allNodes =
    keys (b.allNodes.foldl (fun m p => mapInsert p.1 (wrapNode entries p.1 p.2) m) [])
  rw [enrich_wrapped_eq h, keys_map_snd]

theorem enrich_root_mem (modFile : ModFile) (entries : List (String × GoSumEntry)) :
    modFile.modulePath ∈
      keys (enrichGraph modFile (BuildDependencyGraph modFile) entries).enhancedNodes := by
  rw [enrich_keys (build_allNodes_keys_nodup modFile)]
  exact List.mem_append_left _ (build_root_mem_keys modFile)

/-! ## License classification facts -/


theorem classifyLicense_ne_empty (name : String) : classifyLicense name ≠ "" := by
  unfold classifyLicense
  cases h : lookupKey name knownLicenses with
  | none =>
    by_cases h1 : goContains name "golang.org/x/" = true
    · rw [if_pos h1]
      decide
    · rw [if_neg h1]
      by_cases h2 : goContains name "github.com/mattn/" = true
      · rw [if_pos h2]
        decide
      · rw [if_neg h2]
        decide
  | some l =>
    have hmem := lookupKey_mem h
    have hall : ∀ x ∈ knownLicenses, x.2 ≠ "" := by decide
    exact hall _ hmem

@[simp] theorem analyzeLicenses_base (g : EnhancedDependencyGraph) :
    (AnalyzeLicenses g).base = g.base := by
  rw [analyzeLicenses_eq]

@[simp] theorem checkSecurity_base (g : EnhancedDependencyGraph) :
    (CheckSecurity g).base = g.base := by
  rw [checkSecurity_eq]

/-- C7: the summary written by one pass over a freshly enriched graph,
expressed as a fold of bucket increments. -/
theorem analyzeLicenses_summary (g : EnhancedDependencyGraph) :
    (AnalyzeLicenses g).licensesSummary =
      g.enhancedNodes.foldl (fun s p => bumpCount (classifyLicense p.1) s)
        g.licensesSummary := by
  rw [analyzeLicenses_eq]

theorem analyzeLicenses_enhancedNodes (g : EnhancedDependencyGraph) :
    (AnalyzeLicenses g).enhancedNodes =
      g.enhancedNodes.map (fun p => (p.1, { p.2 with license := classifyLicense p.1 })) := by
  rw [analyzeLicenses_eq]

/-- C7 — invoking the license-classification pass twice on the same
enriched graph yields a `licensesSummary` in which every count is exactly
double its value after one invocation: the pass resets nothing and
re-increments one bucket per enhanced node on each run. -/
theorem C7_analyzeLicenses_twice_doubles (modFile : ModFile)
    (entries : List (String × GoSumEntry)) (license : String) :
    countOf license
        (AnalyzeLicenses (AnalyzeLicenses
          (enrichGraph modFile (BuildDependencyGraph modFile) entries))).licensesSummary =
      2 * countOf license
        (AnalyzeLicenses
          (enrichGraph modFile (BuildDependencyGraph modFile) entries)).licensesSummary := by
  have hONE := analyzeLicenses_summary
    (enrichGraph modFile (BuildDependencyGraph modFile) entries)
  have hTWO := analyzeLicenses_summary
    (AnalyzeLicenses (enrichGraph modFile (BuildDependencyGraph modFile) entries))
  rw [hTWO, hONE, analyzeLicenses_enhancedNodes, enrichGraph_licensesSummary]
  have hcount := foldl_bump_countOf
    (fun p : String × EnhancedNode => classifyLicense p.1) license
  rw [hcount, hcount]
  have hmaps :
      (((enrichGraph modFile (BuildDependencyGraph modFile) entries).enhancedNodes.map
          (fun p => (p.1, { p.2 with license := classifyLicense p.1 }))).map
        (fun p : String × EnhancedNode => classifyLicense p.1)) =
      ((enrichGraph modFile (BuildDependencyGraph modFile) entries).enhancedNodes.map
        (fun p : String × EnhancedNode => classifyLicense p.1)) := by
    rw [List.map_map]
    rfl
  rw [hmaps, countOf_nil]
  omega

/-- C3 (amended) — one license pass over a freshly enriched graph gives
every enhanced node (root included) a non-empty license, and the summary
counts sum to the total number of enhanced nodes, which is the number of
non-root nodes plus one. -/
theorem C3_license_totality (modFile : ModFile) (entries : List (String × GoSumEntry)) :
    let g1 := AnalyzeLicenses (enrichGraph modFile (BuildDependencyGraph modFile) entries)
    (∀ p ∈ g1.enhancedNodes, p.2.license ≠ "") ∧
    countSum g1.licensesSummary = g1.enhancedNodes.length ∧
    g1.enhancedNodes.length =
      (g1.enhancedNodes.filter (fun p => p.1 ≠ g1.base.root.name)).length + 1 := by
  intro g1
  have hnodes := analyzeLicenses_enhancedNodes
    (enrichGraph modFile (BuildDependencyGraph modFile) entries)
  refine ⟨?_, ?_, ?_⟩
  · intro p hp
    rw [show g1.enhancedNodes = _ from hnodes] at hp
    rcases List.mem_map.mp hp with ⟨q, _, rfl⟩
    exact classifyLicense_ne_empty q.1
  · rw [show g1.licensesSummary = _ from analyzeLicenses_summary _,
      enrichGraph_licensesSummary]
    have hsum := foldl_bump_countSum (fun p : String × EnhancedNode => classifyLicense p.1)
      (enrichGraph modFile (BuildDependencyGraph modFile) entries).enhancedNodes []
      (by simp [keys])
    rw [hsum]
    rw [show g1.enhancedNodes = _ from hnodes, List.length_map]
    simp [countSum]
  · have hroot : g1.base.root.name = modFile.modulePath := by
      rw [show g1.base = _ from analyzeLicenses_base _, enrichGraph_root, build_root_name]
    have hkeys : keys g1.enhancedNodes =
        keys (enrichGraph modFile (BuildDependencyGraph modFile) entries).enhancedNodes := by
      rw [show g1.enhancedNodes = _ from hnodes, keys_map_snd]
    have hnd : (keys g1.enhancedNodes).Nodup := by
      rw [hkeys]
      exact enrich_keys_nodup (build_allNodes_keys_nodup modFile)
    have hmem : g1.base.root.name ∈ keys g1.enhancedNodes := by
      rw [hkeys, hroot]
      exact enrich_root_mem modFile entries
    have hone : (g1.enhancedNodes.filter (fun p => p.1 = g1.base.root.name)).length = 1 := by
      rw [filter_key_length]
      exact List.count_eq_one_of_mem hnd hmem
    have hpart := length_filter_partition
      (fun p : String × EnhancedNode => p.1 = g1.base.root.name) g1.enhancedNodes
    have hfeq : g1.enhancedNodes.filter
        (fun p => !(decide (p.1 = g1.base.root.name))) =
        g1.enhancedNodes.filter (fun p => p.1 ≠ g1.base.root.name) := by
      apply List.filter_congr
      intro p _
      simp
    rw [← hfeq]
    omega

theorem trans_paths_iff {entries : List (String × GoSumEntry)} {dd : List String}
    {x : String} :
    x ∈ (GetTransitiveDependencies entries dd).map (·.modulePath) ↔
      (x ∈ (entries.map (·.2)).map (·.modulePath) ∧ x ∉ dd) := by
  constructor
  · intro h
    rcases List.mem_map.mp h with ⟨e, he, rfl⟩
    obtain ⟨h1, h2, _⟩ := transLoop_mem_sub he
    exact ⟨List.mem_map_of_mem _ h1, h2⟩
  · rintro ⟨h1, h2⟩
    rcases @transLoop_complete dd x entries [] h1 h2 with hs | ht
    · simp at hs
    · exact ht

theorem directDeps_subset_require {modFile : ModFile} {x : String}
    (h : x ∈ GetDirectDependencies modFile) : x ∈ modFile.require.map (·.path) := by
  rcases List.mem_map.mp h with ⟨r, hr, rfl⟩
  exact List.mem_map_of_mem _ (List.mem_of_mem_filter hr)

/-- C1 — the enriched node set is the union of the declared names (root
and requires) with the lock-only module paths; every lock-only path gets
exactly one node, synthesized `direct = false` with the hash of its first
(representative) lock entry, however many versions the lock file holds;
and enrichment never removes nodes. -/
theorem C1_enriched_node_set (modFile : ModFile) (entries : List (String × GoSumEntry)) :
    let declared := modFile.modulePath :: modFile.require.map (·.path)
    let g := enrichGraph modFile (BuildDependencyGraph modFile) entries
    let lockPaths := (entries.map (·.2)).map (·.modulePath)
    ((keys g.base.allNodes).toFinset =
      declared.toFinset ∪ (lockPaths.toFinset \ declared.toFinset)) ∧
    keys g.enhancedNodes = keys g.base.allNodes ∧
    (∀ x ∈ lockPaths, x ∉ declared →
      (keys g.base.allNodes).count x = 1 ∧
      ∃ e, (entries.map (·.2)).find? (fun q => q.modulePath = x) = some e ∧
        lookupKey x g.enhancedNodes = some (synthEnhanced e) ∧
        (synthEnhanced e).node.direct = false ∧ (synthEnhanced e).hash = e.hash ∧
        lookupKey x g.base.allNodes = some (synthNode e)) ∧
    (BuildDependencyGraph modFile).allNodes.length ≤ g.base.allNodes.length := by
  intro declared g lockPaths
  have hbnd := build_allNodes_keys_nodup modFile
  have hbk : keys g.base.allNodes = keys g.enhancedNodes := enrich_base_keys hbnd
  have hdd : ∀ y, y ∈ GetDirectDependencies modFile → y ∈ declared := by
    intro y hy
    exact List.mem_cons_of_mem _ (directDeps_subset_require hy)
  have hdecl : ∀ y, y ∈ keys (BuildDependencyGraph modFile).allNodes ↔ y ∈ declared := by
    intro y
    rw [build_mem_keys_iff]
    exact (List.mem_cons).symm
  refine ⟨?_, hbk.symm, ?_, ?_⟩
  · ext x
    simp only [List.mem_toFinset, Finset.mem_union, Finset.mem_sdiff]
    rw [hbk, enrich_keys hbnd, List.mem_append, List.mem_filter]
    constructor
    · rintro (h | ⟨ht, hf⟩)
      · exact Or.inl ((hdecl x).mp h)
      · obtain ⟨hl, hd⟩ := trans_paths_iff.mp ht
        have hnotb : x ∉ declared := fun hc => (of_decide_eq_true hf) ((hdecl x).mpr hc)
        exact Or.inr ⟨hl, hnotb⟩
    · rintro (h | ⟨hl, hnd⟩)
      · exact Or.inl ((hdecl x).mpr h)
      · right
        have hxdd : x ∉ GetDirectDependencies modFile := fun hc => hnd (hdd x hc)
        refine ⟨trans_paths_iff.mpr ⟨hl, hxdd⟩, ?_⟩
        exact decide_eq_true (fun hc => hnd ((hdecl x).mp hc))
  · intro x hx hnotdecl
    have hxdd : x ∉ GetDirectDependencies modFile := fun hc => hnotdecl (hdd x hc)
    have hxt : x ∈ (GetTransitiveDependencies entries
        (GetDirectDependencies modFile)).map (·.modulePath) :=
      trans_paths_iff.mpr ⟨hx, hxdd⟩
    rcases List.mem_map.mp hxt with ⟨e, he, rfl⟩
    have hfresh : e.modulePath ∉
        keys (enrichBase modFile (BuildDependencyGraph modFile) entries).enhancedNodes := by
      show e.modulePath ∉ keys ((BuildDependencyGraph modFile).allNodes.foldl
        (fun m p => mapInsert p.1 (wrapNode entries p.1 p.2) m) [])
      rw [enrich_wrapped_eq hbnd, keys_map_snd]
      exact fun hc => hnotdecl ((hdecl _).mp hc)
    have hlook := addTransLoop_lookup_fresh
      (GetTransitiveDependencies entries (GetDirectDependencies modFile))
      getTransitiveDependencies_paths_nodup _ e he hfresh
    constructor
    · apply List.count_eq_one_of_mem
      · rw [hbk]
        exact enrich_keys_nodup hbnd
      · rw [hbk, ← lookupKey_isSome_iff]
        rw [show g = _ from enrichGraph_def modFile (BuildDependencyGraph modFile) entries]
        rw [hlook.1]
        rfl
    · refine ⟨e, transLoop_first he, ?_, rfl, rfl, ?_⟩
      · rw [show g = _ from enrichGraph_def modFile (BuildDependencyGraph modFile) entries]
        exact hlook.1
      · rw [show g = _ from enrichGraph_def modFile (BuildDependencyGraph modFile) entries]
        exact hlook.2
  · rw [show g = _ from enrichGraph_def modFile (BuildDependencyGraph modFile) entries]
    exact addTransLoop_length_ge _ (enrichBase modFile (BuildDependencyGraph modFile) entries)

/-- C1 witness: in the example graph the doubly-locked `moduleC` is
synthesized exactly once, indirect, with the hash of its first lock
entry. -/
theorem C1_witness :
    ("moduleC" ∈ (exampleEntries.map (·.2)).map (·.modulePath)) ∧
    ("moduleC" ∉ exampleModFile.modulePath :: exampleModFile.require.map (·.path)) ∧
    ((keys (enrichGraph exampleModFile (BuildDependencyGraph exampleModFile)
        exampleEntries).base.allNodes).count "moduleC" = 1 ∧
      ∃ e, ((exampleEntries.map (·.2)).find? (fun q => q.modulePath = "moduleC")) = some e ∧
        lookupKey "moduleC" (enrichGraph exampleModFile (BuildDependencyGraph exampleModFile)
          exampleEntries).enhancedNodes = some (synthEnhanced e) ∧
        (synthEnhanced e).node.direct = false ∧ (synthEnhanced e).hash = e.hash ∧
        lookupKey "moduleC" (enrichGraph exampleModFile (BuildDependencyGraph exampleModFile)
          exampleEntries).base.allNodes = some (synthNode e)) := by
  obtain ⟨-, -, h3, -⟩ := C1_enriched_node_set exampleModFile exampleEntries
  exact ⟨by decide, by decide, h3 "moduleC" (by decide) (by decide)⟩

/-- C3 counterexample: on a graph with only the root node, one license
pass yields a summary whose counts sum to 1 while there are 0 non-root
nodes — the histogram does not range over non-root nodes only. -/
theorem C3_counterexample :
    countSum (AnalyzeLicenses (enrichGraph emptyModFile (BuildDependencyGraph emptyModFile)
        [])).licensesSummary = 1 ∧
    ((AnalyzeLicenses (enrichGraph emptyModFile (BuildDependencyGraph emptyModFile)
        [])).enhancedNodes.filter (fun p => p.1 ≠ (AnalyzeLicenses (enrichGraph emptyModFile
          (BuildDependencyGraph emptyModFile) [])).base.root.name)).length = 0 ∧
    countSum (AnalyzeLicenses (enrichGraph emptyModFile (BuildDependencyGraph emptyModFile)
        [])).licensesSummary ≠
      ((AnalyzeLicenses (enrichGraph emptyModFile (BuildDependencyGraph emptyModFile)
        [])).enhancedNodes.filter (fun p => p.1 ≠ (AnalyzeLicenses (enrichGraph emptyModFile
          (BuildDependencyGraph emptyModFile) [])).base.root.name)).length := by
  refine ⟨?_, ?_, ?_⟩ <;> decide

/-- C3 witness at the example fixture. -/
theorem C3_witness :
    examplePair ∈ (AnalyzeLicenses (enrichGraph exampleModFile
        (BuildDependencyGraph exampleModFile) exampleEntries)).enhancedNodes ∧
    examplePair.2.license ≠ "" ∧
    countSum (AnalyzeLicenses (enrichGraph exampleModFile
        (BuildDependencyGraph exampleModFile) exampleEntries)).licensesSummary =
      (AnalyzeLicenses (enrichGraph exampleModFile
        (BuildDependencyGraph exampleModFile) exampleEntries)).enhancedNodes.length := by
  have h := C3_license_totality exampleModFile exampleEntries
  exact ⟨by decide, h.1 examplePair (by decide), h.2.1⟩

/-- C9 — for names outside the static table the organizational rules
match by substring containment (not prefix): a name containing
`golang.org/x/` anywhere is BSD-3-Clause, else one containing
`github.com/mattn/` anywhere is MIT, else `Unknown`; the license stored
on every node by the pass is exactly this classification. -/
theorem C9_license_substring_rules :
    (∀ name, lookupKey name knownLicenses = none →
      goContains name "golang.org/x/" = true → classifyLicense name = "BSD-3-Clause") ∧
    (∀ name, lookupKey name knownLicenses = none →
      goContains name "github.com/mattn/" = true → goContains name "golang.org/x/" = false →
      classifyLicense name = "MIT") ∧
    (∀ name, lookupKey name knownLicenses = none →
      goContains name "golang.org/x/" = false → goContains name "github.com/mattn/" = false →
      classifyLicense name = "Unknown") ∧
    (∀ g : EnhancedDependencyGraph, ∀ p ∈ (AnalyzeLicenses g).enhancedNodes,
      p.2.license = classifyLicense p.1) ∧
    goContains "example.com/mirror/golang.org/x/tools" "golang.org/x/" = true ∧
    ("golang.org/x/".toList.isPrefixOf "example.com/mirror/golang.org/x/tools".toList) = false ∧
    classifyLicense "example.com/mirror/golang.org/x/tools" = "BSD-3-Clause" ∧
    goContains "example.com/vendor/github.com/mattn/go-isatty" "github.com/mattn/" = true ∧
    ("github.com/mattn/".toList.isPrefixOf "example.com/vendor/github.com/mattn/go-isatty".toList) = false ∧
    classifyLicense "example.com/vendor/github.com/mattn/go-isatty" = "MIT" := by
  refine ⟨?_, ?_, ?_, ?_, by decide, by decide, by decide, by decide, by decide, by decide⟩
  · intro name h h1
    unfold classifyLicense
    rw [h, if_pos h1]
  · intro name h h2 h1
    unfold classifyLicense
    rw [h, if_neg (by simp [h1]), if_pos h2]
  · intro name h h1 h2
    unfold classifyLicense
    rw [h, if_neg (by simp [h1]), if_neg (by simp [h2])]
  · intro g p hp
    rw [analyzeLicenses_enhancedNodes] at hp
    rcases List.mem_map.mp hp with ⟨q, _, rfl⟩
    rfl

/-- C9 witness: the substring rules at concrete middle-of-path names. -/
theorem C9_witness :
    lookupKey "example.com/mirror/golang.org/x/tools" knownLicenses = none ∧
    goContains "example.com/mirror/golang.org/x/tools" "golang.org/x/" = true ∧
    classifyLicense "example.com/mirror/golang.org/x/tools" = "BSD-3-Clause" ∧
    lookupKey "example.com/vendor/github.com/mattn/go-isatty" knownLicenses = none ∧
    goContains "example.com/vendor/github.com/mattn/go-isatty" "github.com/mattn/" = true ∧
    goContains "example.com/vendor/github.com/mattn/go-isatty" "golang.org/x/" = false ∧
    classifyLicense "example.com/vendor/github.com/mattn/go-isatty" = "MIT" ∧
    examplePair.2.license = classifyLicense examplePair.1 := by
  obtain ⟨r1, r2, -, r4, -⟩ := C9_license_substring_rules
  refine ⟨by decide, by decide, r1 _ (by decide) (by decide), by decide, by decide,
    by decide, r2 _ (by decide) (by decide) (by decide), ?_⟩
  exact r4 (enrichGraph exampleModFile (BuildDependencyGraph exampleModFile) exampleEntries)
    examplePair (by decide)

/-- C8 (amended) — the security rules are evaluated independently for
every non-root node and are additive: each node's matched issues are
appended both to the node and to the graph list, several rules can fire
on one node (two distinct issues for a version carrying both a
pre-release and an old-date marker), repeated matches of one rule are not
deduplicated, and the root entry is left untouched. -/
theorem C8_security_rules_additive (g : EnhancedDependencyGraph) :
    ((CheckSecurity g).enhancedNodes = g.enhancedNodes.map (fun p =>
        if p.1 = g.base.root.name then p
        else (p.1, { p.2 with securityIssues :=
          p.2.securityIssues ++ nodeSecurityIssues p.1 p.2.node.version }))) ∧
    ((CheckSecurity g).securityIssues = g.securityIssues ++ g.enhancedNodes.flatMap (fun p =>
        if p.1 = g.base.root.name then [] else nodeSecurityIssues p.1 p.2.node.version)) ∧
    nodeSecurityIssues "example.com/m" "v0.9.0-beta.20170101000000" =
      [devVersionIssue, oldVersionIssue] ∧
    devVersionIssue ≠ oldVersionIssue ∧
    nodeSecurityIssues "example.com/crypto/md5/crypto/sha1" "v1.0.0" =
      [insecureCryptoIssue, insecureCryptoIssue] := by
  refine ⟨?_, ?_, by decide, by decide, by decide⟩
  · rw [checkSecurity_eq]
  · rw [checkSecurity_eq]

/-- C8 counterexample: the claim's chosen scenario is impossible — the
empty version contains no pre-release marker, and a node with the empty
version receives exactly the single NO-VERSION issue, not two. -/
theorem C8_counterexample :
    devVersionIssues "" = [] ∧
    devVersionIssues "v0.0.0" = [] ∧
    noVersionIssues "" = [noVersionIssue] ∧
    nodeSecurityIssues "example.com/lib" "" = [noVersionIssue] ∧
    (goContains "" "dev" || goContains "" "alpha" || goContains "" "beta" ||
      goContains "" "rc" || goContains "" "snapshot") = false := by
  refine ⟨?_, ?_, ?_, ?_, ?_⟩ <;> decide

/-! ## Generalized in-place value-update lemmas -/


theorem keys_updateMap {f : α → α} {k : String} :
    ∀ {m : List (String × α)},
      keys (m.map (fun p => if p.1 = k then (p.1, f p.2) else p)) = keys m := by
  intro m
  induction m with
  | nil => rfl
  | cons p m ih =>
    by_cases hp : p.1 = k <;> simp [keys, hp] <;> simpa [keys] using ih

theorem lookupKey_updateMap_self {f : α → α} {k : String} :
    ∀ {m : List (String × α)},
      lookupKey k (m.map (fun p => if p.1 = k then (p.1, f p.2) else p)) =
        (lookupKey k m).map f := by
  intro m
  induction m with
  | nil => rfl
  | cons p m ih => by_cases hp : p.1 = k <;> simp [hp, ih]

theorem lookupKey_updateMap_ne {f : α → α} {k k' : String} (h : k' ≠ k) :
    ∀ {m : List (String × α)},
      lookupKey k' (m.map (fun p => if p.1 = k then (p.1, f p.2) else p)) =
        lookupKey k' m := by
  intro m
  induction m with
  | nil => rfl
  | cons p m ih =>
    have hne : ¬ (k = k') := fun hh => h hh.symm
    by_cases hp : p.1 = k
    · have hp' : ¬ (p.1 = k') := by rw [hp]; exact hne
      simp [hp, hp', hne, ih]
    · by_cases hp' : p.1 = k' <;> simp [hp, hp', h, hne, ih]

theorem keys_multiAdd {k v : String} {m : List (String × List String)} :
    keys (multiAdd k v m) = if k ∈ keys m then keys m else keys m ++ [k] := by
  by_cases h : k ∈ keys m
  · rw [if_pos h, multiAdd, if_pos (lookupKey_isSome_iff.mpr h),
      keys_updateMap (f := fun l => l ++ [v])]
  · rw [if_neg h, multiAdd, if_neg (by simpa [lookupKey_isSome_iff] using h), keys_append]
    rfl

theorem keys_nodup_multiAdd {k v : String} {m : List (String × List String)}
    (h : (keys m).Nodup) : (keys (multiAdd k v m)).Nodup := by
  rw [keys_multiAdd]
  by_cases hk : k ∈ keys m
  · rwa [if_pos hk]
  · rw [if_neg hk]
    simpa [List.nodup_append] using ⟨h, fun hx => hk hx⟩

theorem lookupMulti_multiAdd_self {k v : String} {m : List (String × List String)} :
    lookupMulti k (multiAdd k v m) = lookupMulti k m ++ [v] := by
  by_cases h : k ∈ keys m
  · rw [multiAdd, if_pos (lookupKey_isSome_iff.mpr h)]
    unfold lookupMulti
    rw [lookupKey_updateMap_self (f := fun l => l ++ [v])]
    rcases Option.isSome_iff_exists.mp (lookupKey_isSome_iff.mpr h) with ⟨vs, hv⟩
    simp [hv]
  · rw [multiAdd, if_neg (by simpa [lookupKey_isSome_iff] using h)]
    unfold lookupMulti
    rw [lookupKey_append, (lookupKey_eq_none_iff).mpr h]
    simp [lookupKey_eq_none_iff.mpr h]

theorem lookupMulti_multiAdd_ne {k k' v : String} {m : List (String × List String)}
    (h : k' ≠ k) : lookupMulti k' (multiAdd k v m) = lookupMulti k' m := by
  have hne : ¬ (k = k') := fun hh => h hh.symm
  by_cases hk : k ∈ keys m
  · rw [multiAdd, if_pos (lookupKey_isSome_iff.mpr hk)]
    unfold lookupMulti
    rw [lookupKey_updateMap_ne (f := fun l => l ++ [v]) h]
  · rw [multiAdd, if_neg (by simpa [lookupKey_isSome_iff] using hk)]
    unfold lookupMulti
    rw [lookupKey_append]
    cases hl : lookupKey k' m <;> simp [hl, hne]

theorem versionsOf_cons {p : String} {q : String × GoSumEntry}
    {entries : List (String × GoSumEntry)} :
    versionsOf p (q :: entries) =
      if q.2.modulePath = p then q.2.version :: versionsOf p entries
      else versionsOf p entries := by
  unfold versionsOf
  rw [List.filter_cons]
  by_cases h : q.2.modulePath = p
  · rw [if_pos (by simpa using h), if_pos h, List.map_cons]
  · rw [if_neg (by simpa using h), if_neg h]

theorem buildVersionMap_lookup_general {p : String} :
    ∀ (entries : List (String × GoSumEntry)) (m : List (String × List String)),
      lookupMulti p (entries.foldl (fun acc q => multiAdd q.2.modulePath q.2.version acc) m) =
        lookupMulti p m ++ versionsOf p entries := by
  intro entries
  induction entries with
  | nil => intro m; simp [versionsOf]
  | cons q rest ih =>
    intro m
    rw [List.foldl_cons, ih, versionsOf_cons]
    by_cases h : q.2.modulePath = p
    · rw [if_pos h, ← h, lookupMulti_multiAdd_self]
      simp
    · rw [if_neg h, lookupMulti_multiAdd_ne (fun hh => h hh.symm)]

theorem buildVersionMap_lookupMulti {p : String} {entries : List (String × GoSumEntry)} :
    lookupMulti p (buildVersionMap entries) = versionsOf p entries := by
  unfold buildVersionMap
  rw [buildVersionMap_lookup_general]
  rfl

theorem buildVersionMap_keys_nodup {entries : List (String × GoSumEntry)} :
    (keys (buildVersionMap entries)).Nodup := by
  unfold buildVersionMap
  suffices h : ∀ (l : List (String × GoSumEntry)) (m : List (String × List String)),
      (keys m).Nodup →
      (keys (l.foldl (fun acc q => multiAdd q.2.modulePath q.2.version acc) m)).Nodup by
    exact h entries [] (by simp [keys])
  intro l
  induction l with
  | nil => intro m hm; simpa
  | cons q rest ih => intro m hm; exact ih _ (keys_nodup_multiAdd hm)

theorem buildVersionMap_mem_keys {p : String} {entries : List (String × GoSumEntry)} :
    p ∈ keys (buildVersionMap entries) ↔ versionsOf p entries ≠ [] := by
  unfold buildVersionMap
  suffices h : ∀ (l : List (String × GoSumEntry)) (m : List (String × List String)),
      (p ∈ keys (l.foldl (fun acc q => multiAdd q.2.modulePath q.2.version acc) m) ↔
        p ∈ keys m ∨ versionsOf p l ≠ []) by
    rw [h entries []]
    simp [keys]
  intro l
  induction l with
  | nil => intro m; simp [versionsOf]
  | cons q rest ih =>
    intro m
    rw [List.foldl_cons, ih, versionsOf_cons]
    have hk : p ∈ keys (multiAdd q.2.modulePath q.2.version m) ↔
        p ∈ keys m ∨ p = q.2.modulePath := by
      rw [keys_multiAdd]
      by_cases h : q.2.modulePath ∈ keys m
      · rw [if_pos h]
        constructor
        · exact Or.inl
        · rintro (hx | rfl)
          · exact hx
          · exact h
      · rw [if_neg h]
        simp
    rw [hk]
    by_cases h : q.2.modulePath = p
    · simp [h]
    · have : ¬ (p = q.2.modulePath) := fun hh => h hh.symm
      simp [h, this]

theorem pathBlock_not_mem {vm : List (String × List String)} {x : String}
    (h : x ∉ keys vm) : pathBlock vm x = [] := by
  unfold pathBlock
  rw [lookupKey_eq_none_iff.mpr h]

theorem pathBlock_cons {k : String} {vs : List String}
    {rest : List (String × List String)} {x : String} :
    pathBlock ((k, vs) :: rest) x =
      if k = x then (if vs.length > 1 then conflictsFor x vs else [])
      else pathBlock rest x := by
  unfold pathBlock
  rw [lookupKey_cons]
  by_cases h : k = x
  · rw [if_pos h, if_pos h]
  · rw [if_neg h, if_neg h]

theorem pathBlock_buildVersionMap {entries : List (String × GoSumEntry)} {p : String} :
    pathBlock (buildVersionMap entries) p =
      if (versionsOf p entries).length > 1 then conflictsFor p (versionsOf p entries)
      else [] := by
  unfold pathBlock
  cases h : lookupKey p (buildVersionMap entries) with
  | none =>
    have : versionsOf p entries = [] := by
      by_contra hne
      have := buildVersionMap_mem_keys.mpr hne
      rw [← lookupKey_isSome_iff, h] at this
      simp at this
    rw [this]
    simp
  | some vs =>
    have : vs = versionsOf p entries := by
      have := @buildVersionMap_lookupMulti p entries
      rw [lookupMulti, h] at this
      simpa using this
    rw [this]

/-! ## `detectLoop` characterization -/


theorem detectLoop_eq :
    ∀ (vm : List (String × List String)), (keys vm).Nodup →
      ∀ (g : EnhancedDependencyGraph),
        detectLoop vm g =
          { g with
            conflicts := g.conflicts ++ vm.flatMap (fun q =>
              if q.2.length > 1 then conflictsFor q.1 q.2 else [])
            enhancedNodes := g.enhancedNodes.map (fun p =>
              (p.1, { p.2 with conflicts := p.2.conflicts ++ pathBlock vm p.1 })) } := by
  intro vm
  induction vm with
  | nil =>
    intro _ g
    obtain ⟨base, en, gs, cf, si, ls⟩ := g
    show EnhancedDependencyGraph.mk base en gs cf si ls = _
    simp only [detectLoop]
    congr 1
    · rw [List.map_congr_left (fun p _ => ?_), List.map_id]
      show (p.1, { p.2 with conflicts := p.2.conflicts ++ pathBlock [] p.1 }) = p
      rw [pathBlock_not_mem (by simp [keys])]
      rw [List.append_nil]
    · simp
  | cons q rest ih =>
    intro hnd g
    rw [keys_cons, List.nodup_cons] at hnd
    obtain ⟨hq, hndr⟩ := hnd
    obtain ⟨k, vs⟩ := q
    rw [detectLoop]
    by_cases hlen : vs.length > 1
    · rw [if_pos hlen]
      rw [ih hndr]
      by_cases hmem : (lookupKey k g.enhancedNodes).isSome
      · rw [if_pos hmem]
        congr 1
        · dsimp only
          unfold appendNodeConflicts
          rw [List.map_map]
          apply List.map_congr_left
          intro p _
          by_cases hp : p.1 = k
          · simp only [Function.comp_apply, if_pos hp]
            rw [pathBlock_cons, if_pos hp.symm, if_pos hlen]
            rw [pathBlock_not_mem (hp ▸ hq)]
            rw [hp]
            simp [List.append_nil]
          · simp only [Function.comp_apply, if_neg hp]
            rw [pathBlock_cons, if_neg (fun hh => hp hh.symm)]
        · dsimp only
          rw [List.flatMap_cons, if_pos hlen, List.append_assoc]
      · rw [if_neg hmem]
        congr 1
        · dsimp only
          apply List.map_congr_left
          intro p hp
          have hpk : p.1 ≠ k := by
            intro hc
            rw [lookupKey_isSome_iff] at hmem
            exact hmem (hc ▸ List.mem_map_of_mem Prod.fst hp)
          rw [pathBlock_cons, if_neg (fun hh => hpk hh.symm)]
        · dsimp only
          rw [List.flatMap_cons, if_pos hlen, List.append_assoc]
    · rw [if_neg hlen]
      rw [ih hndr]
      congr 1
      · dsimp only
        apply List.map_congr_left
        intro p _
        by_cases hp : p.1 = k
        · rw [pathBlock_cons, if_pos hp.symm, if_neg hlen]
          rw [pathBlock_not_mem (hp ▸ hq)]
        · rw [pathBlock_cons, if_neg (fun hh => hp hh.symm)]
      · dsimp only
        rw [List.flatMap_cons, if_neg hlen, List.nil_append]

/-- What `DetectVersionConflicts` does: append each multi-version path's
conflict block to the graph list and to that path's node. -/
theorem detectVersionConflicts_eq (g : EnhancedDependencyGraph) :
    DetectVersionConflicts g =
      { g with
        conflicts := g.conflicts ++ (buildVersionMap g.goSumEntries).flatMap (fun q =>
          if q.2.length > 1 then conflictsFor q.1 q.2 else [])
        enhancedNodes := g.enhancedNodes.map (fun p =>
          (p.1,
            { p.2 with
              conflicts := p.2.conflicts ++ pathBlock (buildVersionMap g.goSumEntries) p.1 })) } :=
  detectLoop_eq _ buildVersionMap_keys_nodup g

theorem keys_checkSecurity (g : EnhancedDependencyGraph) :
    keys (CheckSecurity g).enhancedNodes = keys g.enhancedNodes := by
  rw [checkSecurity_eq]
  show keys (g.enhancedNodes.map _) = _
  have hfun : (fun p : String × EnhancedNode =>
      if p.1 = g.base.root.name then p
      else (p.1, { p.2 with securityIssues :=
        p.2.securityIssues ++ nodeSecurityIssues p.1 p.2.node.version })) =
    (fun p : String × EnhancedNode =>
      (p.1, if p.1 = g.base.root.name then p.2
        else { p.2 with securityIssues :=
          p.2.securityIssues ++ nodeSecurityIssues p.1 p.2.node.version })) := by
    funext p
    by_cases hp : p.1 = g.base.root.name
    · rw [if_pos hp, if_pos hp]
    · rw [if_neg hp, if_neg hp]
  rw [hfun, keys_map_snd]

/-- C10 — neither conflict detection nor the security pass changes the
node set or any node's base fields: each pass only appends to the
conflict / security-issue lists, per node and graph-wide, leaving the
base graph, lock entries and license data untouched. -/
theorem C10_passes_only_append (g : EnhancedDependencyGraph) :
    ((DetectVersionConflicts g).base = g.base ∧
     (DetectVersionConflicts g).goSumEntries = g.goSumEntries ∧
     (DetectVersionConflicts g).securityIssues = g.securityIssues ∧
     (DetectVersionConflicts g).licensesSummary = g.licensesSummary ∧
     keys (DetectVersionConflicts g).enhancedNodes = keys g.enhancedNodes ∧
     (DetectVersionConflicts g).enhancedNodes = g.enhancedNodes.map (fun p =>
       (p.1,
         { p.2 with
           conflicts := p.2.conflicts ++ pathBlock (buildVersionMap g.goSumEntries) p.1 })) ∧
     (∃ cs, (DetectVersionConflicts g).conflicts = g.conflicts ++ cs)) ∧
    ((CheckSecurity g).base = g.base ∧
     (CheckSecurity g).goSumEntries = g.goSumEntries ∧
     (CheckSecurity g).conflicts = g.conflicts ∧
     (CheckSecurity g).licensesSummary = g.licensesSummary ∧
     keys (CheckSecurity g).enhancedNodes = keys g.enhancedNodes ∧
     (CheckSecurity g).enhancedNodes = g.enhancedNodes.map (fun p =>
       if p.1 = g.base.root.name then p
       else (p.1,
         { p.2 with
           securityIssues := p.2.securityIssues ++ nodeSecurityIssues p.1 p.2.node.version })) ∧
     (∃ issues, (CheckSecurity g).securityIssues = g.securityIssues ++ issues)) := by
  constructor
  · refine ⟨?_, ?_, ?_, ?_, ?_, ?_, ?_⟩
    · rw [detectVersionConflicts_eq]
    · rw [detectVersionConflicts_eq]
    · rw [detectVersionConflicts_eq]
    · rw [detectVersionConflicts_eq]
    · rw [detectVersionConflicts_eq]
      show keys (g.enhancedNodes.map _) = _
      rw [keys_map_snd]
    · rw [detectVersionConflicts_eq]
    · exact ⟨_, by rw [detectVersionConflicts_eq]⟩
  · refine ⟨?_, ?_, ?_, ?_, keys_checkSecurity g, ?_, ?_⟩
    · rw [checkSecurity_eq]
    · rw [checkSecurity_eq]
    · rw [checkSecurity_eq]
    · rw [checkSecurity_eq]
    · rw [checkSecurity_eq]
    · exact ⟨_, by rw [checkSecurity_eq]⟩

/-! ## Statistics -/


theorem getDependencyCount_loop (rn : String) :
    ∀ (l : List (String × Node)) (a b : Nat),
      l.foldl (fun acc p =>
        if p.2.name ≠ rn then
          if p.2.direct then (acc.1 + 1, acc.2) else (acc.1, acc.2 + 1)
        else acc) (a, b) =
      (a + (l.filter (fun p => p.2.name ≠ rn ∧ p.2.direct = true)).length,
       b + (l.filter (fun p => p.2.name ≠ rn ∧ p.2.direct = false)).length) := by
  intro l
  induction l with
  | nil => intro a b; simp
  | cons p l ih =>
    intro a b
    rw [List.foldl_cons, List.filter_cons, List.filter_cons]
    by_cases h1 : p.2.name ≠ rn
    · by_cases h2 : p.2.direct = true
      · rw [if_pos h1, if_pos h2, ih]
        rw [if_pos (by simp [h1, h2]), if_neg (by simp [h2])]
        rw [List.length_cons]
        rw [Prod.ext_iff]
        constructor
        · dsimp only
          omega
        · rfl
      · rw [if_pos h1, if_neg h2, ih]
        rw [if_neg (by simp [h2]), if_pos (by simp [h1, h2])]
        rw [List.length_cons]
        rw [Prod.ext_iff]
        constructor
        · rfl
        · dsimp only
          omega
    · rw [if_neg h1, ih]
      rw [if_neg (by simp [h1]), if_neg (by simp [h1])]

theorem getDependencyCount_eq (g : DependencyGraph) :
    GetDependencyCount g =
      ((g.allNodes.filter (fun p => p.2.name ≠ g.root.name ∧ p.2.direct = true)).length,
       (g.allNodes.filter (fun p => p.2.name ≠ g.root.name ∧ p.2.direct = false)).length) := by
  unfold GetDependencyCount
  rw [getDependencyCount_loop]
  simp

/-- C6 — the statistics snapshot has exactly the eight documented keys;
`total_dependencies` is the node count minus one, the direct/indirect
counts are the non-root nodes partitioned by their `Direct` flag,
`transitive_dependencies` is lock-entry count minus direct minus indirect
over `Int` (no clamping — it is `-2` on the example manifest with an
empty lock file), and `licenses_breakdown` is the full histogram. -/
theorem C6_statistics_snapshot (g : EnhancedDependencyGraph) :
    keys (GetStatistics g) =
      ["total_dependencies", "direct_dependencies", "indirect_dependencies",
       "transitive_dependencies", "version_conflicts", "security_issues",
       "unique_licenses", "licenses_breakdown"] ∧
    lookupKey "total_dependencies" (GetStatistics g) =
      some (StatValue.int ((g.base.allNodes.length : Int) - 1)) ∧
    lookupKey "direct_dependencies" (GetStatistics g) =
      some (StatValue.int ((g.base.allNodes.filter
        (fun p => p.2.name ≠ g.base.root.name ∧ p.2.direct = true)).length : Int)) ∧
    lookupKey "indirect_dependencies" (GetStatistics g) =
      some (StatValue.int ((g.base.allNodes.filter
        (fun p => p.2.name ≠ g.base.root.name ∧ p.2.direct = false)).length : Int)) ∧
    lookupKey "transitive_dependencies" (GetStatistics g) =
      some (StatValue.int ((g.goSumEntries.length : Int) -
        (GetDependencyCount g.base).1 - (GetDependencyCount g.base).2)) ∧
    lookupKey "version_conflicts" (GetStatistics g) =
      some (StatValue.int (g.conflicts.length : Int)) ∧
    lookupKey "security_issues" (GetStatistics g) =
      some (StatValue.int (g.securityIssues.length : Int)) ∧
    lookupKey "unique_licenses" (GetStatistics g) =
      some (StatValue.int (g.licensesSummary.length : Int)) ∧
    lookupKey "licenses_breakdown" (GetStatistics g) =
      some (StatValue.histogram g.licensesSummary) ∧
    lookupKey "transitive_dependencies" (GetStatistics (enrichGraph exampleModFile
      (BuildDependencyGraph exampleModFile) [])) = some (StatValue.int (-2)) := by
  refine ⟨rfl, rfl, ?_, ?_, rfl, rfl, rfl, rfl, rfl, by decide⟩
  · show some (StatValue.int ((GetDependencyCount g.base).1 : Int)) = _
    rw [getDependencyCount_eq]
  · show some (StatValue.int ((GetDependencyCount g.base).2 : Int)) = _
    rw [getDependencyCount_eq]

/-! ## Base graph builder -/


/-- C5 — a manifest with N direct and M indirect requirements, all paths
distinct and distinct from the module path, builds a base graph of
exactly N+M+1 nodes; `root.children` has length N, node names are the
unique keys of `AllNodes`, and the root carries the module path, version
`"main"` and `direct = true`. -/
theorem C5_base_graph (modFile : ModFile)
    (hnd : (modFile.modulePath :: modFile.require.map (·.path)).Nodup) :
    (BuildDependencyGraph modFile).allNodes.length =
      (modFile.require.filter (fun r => !r.indirect)).length +
        (modFile.require.filter (fun r => r.indirect)).length + 1 ∧
    (BuildDependencyGraph modFile).root.children.length =
      (modFile.require.filter (fun r => !r.indirect)).length ∧
    (keys (BuildDependencyGraph modFile).allNodes).Nodup ∧
    (∀ p ∈ (BuildDependencyGraph modFile).allNodes, p.1 = p.2.name) ∧
    (BuildDependencyGraph modFile).root.name = modFile.modulePath ∧
    (BuildDependencyGraph modFile).root.version = "main" ∧
    (BuildDependencyGraph modFile).root.direct = true ∧
    lookupKey modFile.modulePath (BuildDependencyGraph modFile).allNodes =
      some (BuildDependencyGraph modFile).root := by
  refine ⟨?_, ?_, build_allNodes_keys_nodup modFile, ?_, rfl, rfl, rfl, ?_⟩
  · rw [build_allNodes_eq hnd, List.length_cons, List.length_map]
    have hpart := length_filter_partition (fun r : Require => !r.indirect) modFile.require
    have hcong : modFile.require.filter (fun r => !(!r.indirect)) =
        modFile.require.filter (fun r => r.indirect) := by
      apply List.filter_congr
      intro r _
      simp
    rw [hcong] at hpart
    omega
  · rw [build_root_children, List.length_map]
  · intro p hp
    rw [build_allNodes_eq hnd] at hp
    rcases List.mem_cons.mp hp with rfl | hp
    · rfl
    · rcases List.mem_map.mp hp with ⟨r, _, rfl⟩
      rfl
  · rw [build_allNodes_eq hnd, lookupKey_cons, if_pos rfl]
    rfl

/-- C5 witness at the example manifest (one direct, one indirect). -/
theorem C5_witness :
    ((exampleModFile.modulePath :: exampleModFile.require.map (·.path)).Nodup) ∧
    (BuildDependencyGraph exampleModFile).allNodes.length = 3 ∧
    (BuildDependencyGraph exampleModFile).root.children.length = 1 ∧
    (BuildDependencyGraph exampleModFile).root.name = "example.com/app" := by
  have h := C5_base_graph exampleModFile (by decide)
  refine ⟨by decide, ?_, ?_, ?_⟩
  · rw [h.1]
    decide
  · rw [h.2.1]
    decide
  · exact h.2.2.2.2.1

/-! ## Lock loading and error propagation -/


/-- C4 — `ParseGoSum` errors exactly on a read error on an opened file; a
missing lock file yields an empty entry map, enrichment over it succeeds
with exactly the manifest-declared node set, and conflict detection finds
nothing. -/
theorem C4_lock_load_errors :
    (∀ lines : List String, ParseGoSum (GoSumFile.present lines true) =
      Except.error "error reading go.sum") ∧
    (∀ (modFile : ModFile) (lines : List String),
      BuildEnhancedDependencyGraph modFile (GoSumFile.present lines true) =
        Except.error "failed to parse go.sum: error reading go.sum") ∧
    (∀ f : GoSumFile, (∃ e, ParseGoSum f = Except.error e) ↔
      ∃ lines, f = GoSumFile.present lines true) ∧
    (ParseGoSum GoSumFile.missing = Except.ok []) ∧
    (∀ modFile : ModFile,
      BuildEnhancedDependencyGraph modFile GoSumFile.missing =
        Except.ok (enrichGraph modFile (BuildDependencyGraph modFile) [])) ∧
    (∀ modFile : ModFile,
      keys (enrichGraph modFile (BuildDependencyGraph modFile) []).base.allNodes =
        keys (BuildDependencyGraph modFile).allNodes ∧
      (enrichGraph modFile (BuildDependencyGraph modFile) []).conflicts = [] ∧
      (DetectVersionConflicts
        (enrichGraph modFile (BuildDependencyGraph modFile) [])).conflicts = []) := by
  refine ⟨fun _ => rfl, fun _ _ => rfl, ?_, rfl, fun _ => rfl, fun modFile => ⟨rfl, rfl, rfl⟩⟩
  intro f
  cases f with
  | missing => simp [ParseGoSum]
  | present lines readErr =>
    cases readErr with
    | false => simp [ParseGoSum]
    | true => simp [ParseGoSum]

/-! ## Order facts for Go string comparison -/


theorem charListLe_refl : ∀ (l : List Char), charListLe l l = true := by
  intro l
  induction l with
  | nil => rfl
  | cons a l ih =>
    simp only [charListLe, if_neg (lt_irrefl a)]
    exact ih

theorem charListLe_total : ∀ (as bs : List Char),
    charListLe as bs = true ∨ charListLe bs as = true := by
  intro as
  induction as with
  | nil => intro bs; left; rfl
  | cons a as ih =>
    intro bs
    cases bs with
    | nil => right; rfl
    | cons b bs =>
      rcases lt_trichotomy a b with h | h | h
      · left
        simp [charListLe, h]
      · subst h
        simp only [charListLe, if_neg (lt_irrefl a)]
        exact ih bs
      · right
        simp [charListLe, h]

theorem charListLe_trans : ∀ (as bs cs : List Char), charListLe as bs = true →
    charListLe bs cs = true → charListLe as cs = true := by
  intro as
  induction as with
  | nil => intro bs cs _ _; rfl
  | cons a as ih =>
    intro bs cs h1 h2
    cases bs with
    | nil => simp [charListLe] at h1
    | cons b bs =>
      cases cs with
      | nil => simp [charListLe] at h2
      | cons c cs =>
        simp only [charListLe] at h1 h2 ⊢
        rcases lt_trichotomy a b with hab | hab | hab
        · rcases lt_trichotomy b c with hbc | hbc | hbc
          · rw [if_pos (lt_trans hab hbc)]
          · subst hbc
            rw [if_pos hab]
          · rw [if_neg (asymm hbc), if_pos hbc] at h2
            exact absurd h2 (by simp)
        · subst hab
          rw [if_neg (lt_irrefl a), if_neg (lt_irrefl a)] at h1
          rcases lt_trichotomy a c with hac | hac | hac
          · rw [if_pos hac]
          · subst hac
            rw [if_neg (lt_irrefl a), if_neg (lt_irrefl a)] at h2 ⊢
            exact ih bs cs h1 h2
          · rw [if_neg (asymm hac), if_pos hac] at h2
            exact absurd h2 (by simp)
        · rw [if_neg (asymm hab), if_pos hab] at h1
          exact absurd h1 (by simp)

theorem charListLe_antisymm : ∀ (as bs : List Char), charListLe as bs = true →
    charListLe bs as = true → as = bs := by
  intro as
  induction as with
  | nil =>
    intro bs h1 h2
    cases bs with
    | nil => rfl
    | cons b bs => simp [charListLe] at h2
  | cons a as ih =>
    intro bs h1 h2
    cases bs with
    | nil => simp [charListLe] at h1
    | cons b bs =>
      simp only [charListLe] at h1 h2
      rcases lt_trichotomy a b with hab | hab | hab
      · rw [if_neg (asymm hab), if_pos hab] at h2
        exact absurd h2 (by simp)
      · subst hab
        rw [if_neg (lt_irrefl a), if_neg (lt_irrefl a)] at h1 h2
        rw [ih bs h1 h2]
      · rw [if_neg (asymm hab), if_pos hab] at h1
        exact absurd h1 (by simp)

theorem goStringLe_refl (s : String) : goStringLe s s = true := charListLe_refl _

theorem goStringLe_total (s t : String) :
    goStringLe s t = true ∨ goStringLe t s = true := charListLe_total _ _

theorem goStringLe_trans (s t u : String) (h1 : goStringLe s t = true)
    (h2 : goStringLe t u = true) : goStringLe s u = true :=
  charListLe_trans _ _ _ h1 h2

theorem goStringLe_antisymm {s t : String} (h1 : goStringLe s t = true)
    (h2 : goStringLe t s = true) : s = t := by
  have h := charListLe_antisymm _ _ h1 h2
  cases s with
  | mk sd =>
    cases t with
    | mk td =>
      have : sd = td := h
      rw [this]

theorem sortStrings_perm (l : List String) : (sortStrings l).Perm l :=
  List.perm_insertionSort _ l

theorem sortStrings_sorted (l : List String) :
    (sortStrings l).Sorted (fun a b => goStringLe a b = true) :=
  @List.sorted_insertionSort String (fun a b => goStringLe a b = true) _
    ⟨fun a b => goStringLe_total a b⟩ ⟨fun a b c => goStringLe_trans a b c⟩ l

theorem sortStrings_length (l : List String) : (sortStrings l).length = l.length :=
  (sortStrings_perm l).length_eq

theorem getLastD_mem : ∀ (l : List String) (d : String), l ≠ [] → l.getLastD d ∈ l := by
  intro l
  induction l with
  | nil => intro d h; exact absurd rfl h
  | cons a t ih =>
    intro d _
    rw [List.getLastD_cons]
    cases t with
    | nil => simp [List.getLastD]
    | cons b t' => exact List.mem_cons_of_mem _ (ih a (by simp))

theorem sorted_le_getLastD : ∀ {l : List String},
    l.Sorted (fun a b => goStringLe a b = true) →
    ∀ x ∈ l, goStringLe x (l.getLastD "") = true := by
  intro l
  induction l with
  | nil => intro _ x hx; simp at hx
  | cons a t ih =>
    intro hs x hx
    rw [List.getLastD_cons]
    cases t with
    | nil =>
      have : x = a := List.mem_singleton.mp hx
      subst this
      exact goStringLe_refl x
    | cons b t' =>
      rw [List.getLastD_cons]
      have hs' := hs.of_cons
      have hd : ∀ y ∈ (b :: t'), goStringLe a y = true :=
        (List.sorted_cons.mp hs).1
      rcases List.mem_cons.mp hx with rfl | hx'
      · have hb := ih hs' b (by simp)
        rw [List.getLastD_cons] at hb
        exact goStringLe_trans _ _ _ (hd b (by simp)) hb
      · have hrec := ih hs' x hx'
        rw [List.getLastD_cons] at hrec
        exact hrec

theorem getLastD_eq_getLast {l : List String} (h : l ≠ []) (d : String) :
    l.getLastD d = l.getLast h := by
  rw [List.getLastD_eq_getLast?, List.getLast?_eq_getLast l h]
  rfl

/-! ## Lock-entry well-formedness and conflict-block facts -/


theorem versionsOf_nodup {entries : List (String × GoSumEntry)}
    (hwf : GoSumWellFormed entries) (p : String) : (versionsOf p entries).Nodup := by
  unfold versionsOf
  apply List.Nodup.map_on
  · intro x hx y hy hv
    have hxe := List.mem_of_mem_filter hx
    have hye := List.mem_of_mem_filter hy
    have hxp : x.2.modulePath = p := by simpa using List.of_mem_filter hx
    have hyp : y.2.modulePath = p := by simpa using List.of_mem_filter hy
    have hinj := List.inj_on_of_nodup_map (f := Prod.fst) (l := entries) hwf.1
    apply hinj hxe hye
    rw [hwf.2 x hxe, hwf.2 y hye, hxp, hyp, hv]
  · exact List.Nodup.filter _ (List.Nodup.of_map Prod.fst hwf.1)

theorem conflictsFor_path {k : String} {vs : List String} :
    ∀ c ∈ conflictsFor k vs,
      c.modulePath = k ∧ c.reason = "Multiple versions in go.sum" := by
  intro c hc
  unfold conflictsFor at hc
  rcases List.mem_map.mp hc with ⟨v, _, rfl⟩
  exact ⟨rfl, rfl⟩

theorem flatMap_blocks_filter (p : String) :
    ∀ (vm : List (String × List String)), (keys vm).Nodup →
      (vm.flatMap (fun q => if q.2.length > 1 then conflictsFor q.1 q.2 else [])).filter
        (fun c => c.modulePath = p) = pathBlock vm p := by
  intro vm
  induction vm with
  | nil => intro _; rfl
  | cons q rest ih =>
    intro hnd
    rw [keys_cons, List.nodup_cons] at hnd
    obtain ⟨hq, hndr⟩ := hnd
    obtain ⟨k, vs⟩ := q
    rw [List.flatMap_cons, List.filter_append, ih hndr, pathBlock_cons]
    by_cases hp : k = p
    · rw [if_pos hp]
      subst hp
      rw [pathBlock_not_mem hq, List.append_nil]
      by_cases hlen : vs.length > 1
      · rw [if_pos hlen]
        apply List.filter_eq_self.mpr
        intro c hc
        exact decide_eq_true ((conflictsFor_path c hc).1)
      · rw [if_neg hlen]
        rfl
    · rw [if_neg hp]
      have hhead : (if vs.length > 1 then conflictsFor k vs else []).filter
          (fun c => c.modulePath = p) = [] := by
        apply List.filter_eq_nil_iff.mpr
        intro c hc
        by_cases hlen : vs.length > 1
        · rw [if_pos hlen] at hc
          intro hcc
          exact hp (((conflictsFor_path c hc).1).symm.trans (of_decide_eq_true hcc))
        · rw [if_neg hlen] at hc
          simp at hc
      rw [hhead, List.nil_append]

theorem lookupKey_eq_find? (k : String) :
    ∀ (m : List (String × α)),
      lookupKey k m = (m.find? (fun p => p.1 = k)).map (·.2) := by
  intro m
  induction m with
  | nil => rfl
  | cons p m ih =>
    by_cases hp : p.1 = k
    · rw [lookupKey_cons, if_pos hp, List.find?_cons_of_pos _ (by simpa using hp)]
      rfl
    · rw [lookupKey_cons, if_neg hp, List.find?_cons_of_neg _ (by simpa using hp), ih]

theorem lookupKey_map_pair {β : Type*} (f : String × α → β) (k : String) :
    ∀ (m : List (String × α)),
      lookupKey k (m.map (fun p => (p.1, f p))) = (m.find? (fun p => p.1 = k)).map f := by
  intro m
  induction m with
  | nil => rfl
  | cons p m ih =>
    by_cases hp : p.1 = k
    · rw [List.map_cons, lookupKey_cons, List.find?_cons_of_pos _ (by simpa using hp)]
      dsimp only
      rw [if_pos hp]
      rfl
    · rw [List.map_cons, lookupKey_cons, List.find?_cons_of_neg _ (by simpa using hp)]
      dsimp only
      rw [if_neg hp, ih]

theorem lookupKey_map_pair_found {β : Type*} (f : String × α → β) (k : String)
    (m : List (String × α)) (q : String × α)
    (hfq : m.find? (fun r => r.1 = k) = some q) :
    lookupKey k (m.map (fun p => (p.1, f p))) = some (f q) := by
  rw [lookupKey_map_pair, hfq]
  rfl

theorem mem_values_mapInsert {k : String} {nv : α} {m : List (String × α)} {v : α}
    (h : v ∈ (mapInsert k nv m).map (·.2)) : v ∈ m.map (·.2) ∨ v = nv := by
  unfold mapInsert at h
  by_cases hs : (lookupKey k m).isSome
  · rw [if_pos hs, List.map_map] at h
    rcases List.mem_map.mp h with ⟨p, hp, hv⟩
    by_cases hpk : p.1 = k
    · right
      simp only [Function.comp_apply, if_pos hpk] at hv
      exact hv.symm
    · left
      simp only [Function.comp_apply, if_neg hpk] at hv
      exact List.mem_map.mpr ⟨p, hp, hv⟩
  · rw [if_neg hs, List.map_append] at h
    rcases List.mem_append.mp h with h | h
    · exact Or.inl h
    · right
      simpa using h

theorem addTransLoop_values {P : EnhancedNode → Prop} :
    ∀ (l : List GoSumEntry) (g : EnhancedDependencyGraph),
      (∀ v ∈ g.enhancedNodes.map (·.2), P v) → (∀ t ∈ l, P (synthEnhanced t)) →
      ∀ v ∈ (addTransLoop l g).enhancedNodes.map (·.2), P v := by
  intro l
  induction l with
  | nil => intro g hg _ v hv; exact hg v hv
  | cons t l ih =>
    intro g hg hl v hv
    rw [addTransLoop_def] at hv
    by_cases hmem : (lookupKey t.modulePath g.enhancedNodes).isSome
    · rw [if_pos hmem] at hv
      exact ih g hg (fun u hu => hl u (List.mem_cons_of_mem _ hu)) v hv
    · rw [if_neg hmem] at hv
      refine ih _ ?_ (fun u hu => hl u (List.mem_cons_of_mem _ hu)) v hv
      intro u hu
      rcases mem_values_mapInsert hu with hu' | rfl
      · exact hg u hu'
      · exact hl t (by simp)

/-- Every enhanced node of a freshly enriched graph starts with empty
conflict and security lists and the zero-value license. -/
theorem enrich_node_init (modFile : ModFile) (entries : List (String × GoSumEntry)) :
    ∀ x en, lookupKey x (enrichGraph modFile (BuildDependencyGraph modFile)
        entries).enhancedNodes = some en →
      en.conflicts = [] ∧ en.securityIssues = [] ∧ en.license = "" := by
  intro x en hl
  have hmem : en ∈ (enrichGraph modFile (BuildDependencyGraph modFile)
      entries).enhancedNodes.map (·.2) := List.mem_map_of_mem _ (lookupKey_mem hl)
  revert hmem
  rw [enrichGraph_def]
  refine addTransLoop_values (P := fun v => v.conflicts = [] ∧ v.securityIssues = [] ∧ v.license = "")
    (GetTransitiveDependencies entries (GetDirectDependencies modFile))
    (enrichBase modFile (BuildDependencyGraph modFile) entries) ?_ ?_ en
  · intro v hv
    have hwrap : (enrichBase modFile (BuildDependencyGraph modFile) entries).enhancedNodes =
        (BuildDependencyGraph modFile).allNodes.map
          (fun p => (p.1, wrapNode entries p.1 p.2)) :=
      enrich_wrapped_eq (build_allNodes_keys_nodup modFile) entries
    rw [hwrap, List.map_map] at hv
    rcases List.mem_map.mp hv with ⟨p, _, rfl⟩
    exact ⟨rfl, rfl, rfl⟩
  · intro t _
    exact ⟨rfl, rfl, rfl⟩

/-- C2 — for a module path with k ≥ 2 distinct lock versions, conflict
detection emits exactly k−1 records — one per non-maximal version after
sorting ascending — each pairing that version against the lexicographic
maximum with reason "Multiple versions in go.sum"; the block is appended
to the graph list and to the path's enhanced node, and single-version
paths produce no conflicts. -/
theorem C2_version_conflicts (modFile : ModFile) (entries : List (String × GoSumEntry))
    (hwf : GoSumWellFormed entries) (p : String)
    (hk : 2 ≤ (versionsOf p entries).length) :
    (DetectVersionConflicts (enrichGraph modFile (BuildDependencyGraph modFile)
        entries)).conflicts.filter (fun c => c.modulePath = p) =
      conflictsFor p (versionsOf p entries) ∧
    conflictsFor p (versionsOf p entries) =
      (sortStrings (versionsOf p entries)).dropLast.map (fun v =>
        { modulePath := p
          currentVersion := (sortStrings (versionsOf p entries)).getLastD ""
          conflictVersion := v
          reason := "Multiple versions in go.sum" }) ∧
    (conflictsFor p (versionsOf p entries)).length = (versionsOf p entries).length - 1 ∧
    (∀ en, lookupKey p (enrichGraph modFile (BuildDependencyGraph modFile)
        entries).enhancedNodes = some en →
      en.conflicts = [] ∧
      lookupKey p (DetectVersionConflicts (enrichGraph modFile
          (BuildDependencyGraph modFile) entries)).enhancedNodes =
        some { en with conflicts := en.conflicts ++ conflictsFor p (versionsOf p entries) }) ∧
    (sortStrings (versionsOf p entries)).getLastD "" ∈ versionsOf p entries ∧
    (∀ v ∈ versionsOf p entries,
      goStringLe v ((sortStrings (versionsOf p entries)).getLastD "") = true) ∧
    (∀ c ∈ conflictsFor p (versionsOf p entries),
      c.modulePath = p ∧
      c.currentVersion = (sortStrings (versionsOf p entries)).getLastD "" ∧
      c.conflictVersion ∈ versionsOf p entries ∧
      c.conflictVersion ≠ (sortStrings (versionsOf p entries)).getLastD "" ∧
      c.reason = "Multiple versions in go.sum") ∧
    (conflictsFor p (versionsOf p entries)).map (fun c => c.conflictVersion) =
      (sortStrings (versionsOf p entries)).dropLast ∧
    ((sortStrings (versionsOf p entries)).dropLast ++
      [(sortStrings (versionsOf p entries)).getLastD ""]).Perm (versionsOf p entries) ∧
    (∀ q : String, (versionsOf q entries).length ≤ 1 →
      (DetectVersionConflicts (enrichGraph modFile (BuildDependencyGraph modFile)
        entries)).conflicts.filter (fun c => c.modulePath = q) = []) := by
  have hvnodup : (versionsOf p entries).Nodup := versionsOf_nodup hwf p
  have hlen : (versionsOf p entries).length > 1 := by omega
  have hperm := sortStrings_perm (versionsOf p entries)
  have hsortedS := sortStrings_sorted (versionsOf p entries)
  have hsne : sortStrings (versionsOf p entries) ≠ [] := by
    intro h
    have := hperm.length_eq
    rw [h] at this
    simp at this
    omega
  have hsnodup : (sortStrings (versionsOf p entries)).Nodup :=
    (hperm.nodup_iff).mpr hvnodup
  have hsplit := List.dropLast_append_getLast hsne
  have hmaxlast := getLastD_eq_getLast hsne ""
  have hgc : (DetectVersionConflicts (enrichGraph modFile (BuildDependencyGraph modFile)
      entries)).conflicts = (buildVersionMap entries).flatMap (fun q =>
        if q.2.length > 1 then conflictsFor q.1 q.2 else []) := by
    rw [detectVersionConflicts_eq]
    dsimp only
    rw [enrichGraph_conflicts, enrichGraph_goSumEntries, List.nil_append]
  have hfilter : ∀ q : String,
      (DetectVersionConflicts (enrichGraph modFile (BuildDependencyGraph modFile)
        entries)).conflicts.filter (fun c => c.modulePath = q) =
      pathBlock (buildVersionMap entries) q := by
    intro q
    rw [hgc]
    exact flatMap_blocks_filter q (buildVersionMap entries) buildVersionMap_keys_nodup
  refine ⟨?_, rfl, ?_, ?_, ?_, ?_, ?_, ?_, ?_, ?_⟩
  · rw [hfilter p, pathBlock_buildVersionMap, if_pos hlen]
  · unfold conflictsFor
    rw [List.length_map, List.length_dropLast, sortStrings_length]
  · intro en hen
    refine ⟨(enrich_node_init modFile entries p en hen).1, ?_⟩
    rw [lookupKey_eq_find? p] at hen
    cases hfq : List.find? (fun r => r.1 = p)
        (enrichGraph modFile (BuildDependencyGraph modFile) entries).enhancedNodes with
    | none =>
      rw [hfq] at hen
      simp at hen
    | some q =>
      rw [hfq] at hen
      have hq2 : q.2 = en := by simpa using hen
      have hq1 : q.1 = p := by simpa using List.find?_some hfq
      have henh : (DetectVersionConflicts (enrichGraph modFile (BuildDependencyGraph modFile)
          entries)).enhancedNodes =
          (enrichGraph modFile (BuildDependencyGraph modFile) entries).enhancedNodes.map
            (fun r => (r.1, { r.2 with conflicts := r.2.conflicts ++ pathBlock (buildVersionMap (enrichGraph modFile (BuildDependencyGraph modFile) entries).goSumEntries) r.1 })) := by
        rw [detectVersionConflicts_eq]
      rw [henh]
      rw [lookupKey_map_pair_found (f := fun r : String × EnhancedNode => (⟨r.2.node, r.2.hash, r.2.conflicts ++ pathBlock (buildVersionMap (enrichGraph modFile (BuildDependencyGraph modFile) entries).goSumEntries) r.1, r.2.securityIssues, r.2.license⟩ : EnhancedNode)) p _ q hfq]
      rw [hq1, hq2]
      rw [enrichGraph_goSumEntries, pathBlock_buildVersionMap, if_pos hlen]
  · exact hperm.subset (getLastD_mem _ "" hsne)
  · intro v hv
    exact sorted_le_getLastD hsortedS v (hperm.symm.subset hv)
  · intro c hc
    unfold conflictsFor at hc
    rcases List.mem_map.mp hc with ⟨v, hv, rfl⟩
    refine ⟨rfl, rfl, ?_, ?_, rfl⟩
    · exact hperm.subset (List.dropLast_subset _ hv)
    · rw [← hsplit] at hsnodup
      rcases List.nodup_append.mp hsnodup with ⟨-, -, hdisj⟩
      intro hc
      rw [hmaxlast] at hc
      have hc' : v = (sortStrings (versionsOf p entries)).getLast hsne := hc
      exact hdisj hv (by rw [hc']; simp)
  · have h2 : conflictsFor p (versionsOf p entries) =
        (sortStrings (versionsOf p entries)).dropLast.map (fun v =>
          ({ modulePath := p
             currentVersion := (sortStrings (versionsOf p entries)).getLastD ""
             conflictVersion := v
             reason := "Multiple versions in go.sum" } : VersionConflict)) := rfl
    rw [h2, List.map_map]
    exact List.map_id _
  · rw [hmaxlast, hsplit]
    exact hperm
  · intro q hq
    rw [hfilter q, pathBlock_buildVersionMap, if_neg (by omega)]

/-- C2 witness: the three lock versions of `moduleC` yield exactly two
conflicts, both pairing the lexical maximum `v1.2.0` against a smaller
version. -/
theorem C2_witness :
    GoSumWellFormed exampleEntries ∧
    2 ≤ (versionsOf "moduleC" exampleEntries).length ∧
    (DetectVersionConflicts (enrichGraph exampleModFile (BuildDependencyGraph exampleModFile)
        exampleEntries)).conflicts.filter (fun c => c.modulePath = "moduleC") =
      conflictsFor "moduleC" (versionsOf "moduleC" exampleEntries) ∧
    conflictsFor "moduleC" (versionsOf "moduleC" exampleEntries) =
      [{ modulePath := "moduleC", currentVersion := "v1.2.0", conflictVersion := "v1.0.0",
         reason := "Multiple versions in go.sum" },
       { modulePath := "moduleC", currentVersion := "v1.2.0", conflictVersion := "v1.1.0",
         reason := "Multiple versions in go.sum" }] ∧
    lookupKey "moduleC" (enrichGraph exampleModFile (BuildDependencyGraph exampleModFile)
        exampleEntries).enhancedNodes =
      some (synthEnhanced ⟨"moduleC", "v1.0.0", "h1:c1"⟩) ∧
    lookupKey "moduleC" (DetectVersionConflicts (enrichGraph exampleModFile
        (BuildDependencyGraph exampleModFile) exampleEntries)).enhancedNodes =
      some { synthEnhanced ⟨"moduleC", "v1.0.0", "h1:c1"⟩ with
        conflicts := (synthEnhanced ⟨"moduleC", "v1.0.0", "h1:c1"⟩).conflicts ++
          conflictsFor "moduleC" (versionsOf "moduleC" exampleEntries) } := by
  have h := C2_version_conflicts exampleModFile exampleEntries (by decide) "moduleC" (by decide)
  refine ⟨by decide, by decide, h.1, by decide, by decide, ?_⟩
  exact (h.2.2.2.1 (synthEnhanced ⟨"moduleC", "v1.0.0", "h1:c1"⟩) (by decide)).2

end Goviz

